import Mathlib

/-! # SDP media-section parsing (`chime::SDPUtils`, `src/utils/sdp_utils.h`)

A shallow embedding of the string helpers and of the SDP parser of the signaling client,
followed by the properties of the parser.

* A `std::string` / `std::string_view` is the list of its characters.
* A `std::vector<std::string>::const_iterator` is an index into the vector of lines;
  dereferencing an index outside the vector is the fault `Fault.out_of_range`.
* `while` loops are recursive functions over an explicit amount of fuel; an exhausted
  budget is the fault `Fault.out_of_fuel`.
* The `printf` / `fprintf` diagnostics do not influence the returned value and are left out.
* A `size_t` is a natural number; the one conversion of a `size_t` to the 32-bit `int`, in
  `RemoveAllSinceWordOccurrence`, is `static_cast_int`.
-/

namespace chime

/-- A `std::string`, as the sequence of its characters. -/
abbrev Str := List Char

/-- The ways an execution of the embedded code can fail to return a value. -/
inductive Fault where
  | out_of_range
  | out_of_fuel
  deriving DecidableEq, Repr

deriving instance DecidableEq for Except

/-- Modelled from the spec: `MediaType` of `audio_video/media_section.h`, which is not under
`src/`; the two kinds of the spec, with the enumerator names used in `sdp_utils.h`. -/
inductive MediaType where
  | kAudio
  | kVideo
  deriving DecidableEq, Repr

/-- Modelled from the spec: `MediaDirection` of `audio_video/media_section.h`, which is not
under `src/`; the four directions of the spec, with the enumerator names used in
`sdp_utils.h`. -/
inductive MediaDirection where
  | kInactive
  | kSendOnly
  | kRecvOnly
  | kSendRecv
  deriving DecidableEq, Repr

/-- Modelled from the spec: `MediaSection` of `audio_video/media_section.h`, which is not
under `src/`; the record `{kind, identifier, direction}` of the spec, built in
`sdp_utils.h` as `MediaSection{type, mid, *dir}`. -/
structure MediaSection where
  kind : MediaType
  identifier : Str
  direction : MediaDirection
  deriving DecidableEq, Repr

def rec_only : Str := "a=recvonly".toList
def send_only : Str := "a=sendonly".toList
def inactive : Str := "a=inactive".toList
def sendrecv : Str := "a=sendrecv".toList
def mid_prefix : Str := "a=mid:".toList

/-- The line separator handed to `Split` by `ParseSDP`. -/
def crlf : Str := "\r\n".toList

/-- Search of `word` at the successive positions `i, i+1, ...` of a string whose remaining
characters from position `i` on are the first argument. -/
def findFrom : Str → Str → Nat → Option Nat
  | [], word, i => if word = [] then some i else none
  | c :: cs, word, i => if word.isPrefixOf (c :: cs) then some i else findFrom cs word (i + 1)

/-- The call `str.find(word, pos)` of `std::string`: the least position `≥ pos` at which
`word` occurs, `none` standing for `npos`. -/
def find (str word : Str) (pos : Nat) : Option Nat :=
  if pos ≤ str.length then findFrom (str.drop pos) word pos else none

/-- The call `str.substr(pos, n)`, which throws `std::out_of_range` when `pos > size()`. -/
def substr (str : Str) (pos n : Nat) : Except Fault Str :=
  if pos ≤ str.length then .ok ((str.drop pos).take n) else .error .out_of_range

/-- The call `str.substr(pos)`, which throws `std::out_of_range` when `pos > size()`. -/
def substr_from (str : Str) (pos : Nat) : Except Fault Str :=
  if pos ≤ str.length then .ok (str.drop pos) else .error .out_of_range

/-- The call `str.erase(pos, n)`, which throws `std::out_of_range` when `pos > size()` and
otherwise removes the `min(n, size() - pos)` characters from position `pos` on. -/
def erase (str : Str) (pos n : Nat) : Except Fault Str :=
  if pos ≤ str.length then .ok (str.take pos ++ str.drop (pos + n)) else .error .out_of_range

/-- The conversion `static_cast<int>(n)` of a `size_t` to the 32-bit `int`: the value of `n`
modulo `2^32`, read as a signed number. -/
def static_cast_int (n : Nat) : Int :=
  if n % 2 ^ 32 < 2 ^ 31 then ((n % 2 ^ 32 : Nat) : Int)
  else ((n % 2 ^ 32 : Nat) : Int) - 2 ^ 32

/-- The call `str.erase(str.begin() + off, str.end())`; forming the iterator
`str.begin() + off` outside `[begin, end]` is the fault `out_of_range`. -/
def erase_to_end (str : Str) (off : Int) : Except Fault Str :=
  if 0 ≤ off ∧ off ≤ (str.length : Int) then .ok (str.take off.toNat)
  else .error .out_of_range

/-- The function `SDPUtils::RemoveFirstOccurrence`: `str.erase(pos, word.length())` at the
position found, the string unchanged when `word` is not found. -/
def RemoveFirstOccurrence (str word : Str) : Except Fault Str :=
  match find str word 0 with
  | none => .ok str
  | some pos => erase str pos word.length

/-- The function `SDPUtils::RemoveAllSinceWordOccurrence`:
`str.erase(str.begin() + static_cast<int>(pos), str.end())` at the position found, the
string unchanged when `word` is not found. -/
def RemoveAllSinceWordOccurrence (str word : Str) : Except Fault Str :=
  match find str word 0 with
  | none => .ok str
  | some pos => erase_to_end str (static_cast_int pos)

/-- The `while` loop of `SDPUtils::Split`, from the state `(pos_start, res)`. -/
def SplitLoop (str delimiter : Str) : Nat → Nat → List Str → Except Fault (List Str)
  | 0, _, _ => .error .out_of_fuel
  | fuel + 1, pos_start, res =>
    match find str delimiter pos_start with
    | some pos_end =>
      match substr str pos_start (pos_end - pos_start) with
      | .error e => .error e
      | .ok token => SplitLoop str delimiter fuel (pos_end + delimiter.length) (res ++ [token])
    | none =>
      match substr_from str pos_start with
      | .error e => .error e
      | .ok token => .ok (res ++ [token])

/-- The function `SDPUtils::Split`: the loop run from `pos_start = 0` and an empty `res`. -/
def Split (fuel : Nat) (str delimiter : Str) : Except Fault (List Str) :=
  SplitLoop str delimiter fuel 0 []

/-- The function `SDPUtils::StartsWith`: `str.substr(0, prefix.length()) == prefix`; the position `0`
never exceeds the size, so this `substr` cannot throw. -/
def StartsWith (str pfx : Str) : Bool :=
  str.take pfx.length == pfx

/-- The function `SDPUtils::GetDirection`: the four comparisons, in the order of the source. -/
def GetDirection (str : Str) : Option MediaDirection :=
  if str = rec_only then some .kRecvOnly
  else if str = inactive then some .kInactive
  else if str = send_only then some .kSendOnly
  else if str = sendrecv then some .kSendRecv
  else none

/-- The lambda `is_media_section_header` of `ParseSDP`. -/
def is_media_section_header (line : Str) : Bool :=
  StartsWith line "m=".toList

/-- Dereference of the iterator at index `i` of the vector `lines`. -/
def deref (lines : List Str) (i : Nat) : Except Fault Str :=
  match lines[i]? with
  | some line => .ok line
  | none => .error .out_of_range

/-- The call `std::find_if(first, last, p)` over iterators of `lines`: the first index in
`[first, last)` whose line satisfies `p`, and `last` when there is none. -/
def find_if (lines : List Str) (p : Str → Bool) : Nat → Nat → Nat → Except Fault Nat
  | 0, _, _ => .error .out_of_fuel
  | fuel + 1, first, last =>
    if first = last then .ok last
    else
      match deref lines first with
      | .error e => .error e
      | .ok line => if p line then .ok first else find_if lines p fuel (first + 1) last

/-- The `while (begin != end)` loop of `SDPUtils::ParseMediaSection`, from the state
`(begin, mid, dir)`. -/
def ParseMediaSectionLoop (lines : List Str) :
    Nat → Nat → Nat → Str → Option MediaDirection → Except Fault (Str × Option MediaDirection)
  | 0, _, _, _, _ => .error .out_of_fuel
  | fuel + 1, first, last, mid, dir =>
    if first = last then .ok (mid, dir)
    else
      match deref lines first with
      | .error e => .error e
      | .ok line =>
        if StartsWith line mid_prefix then
          match substr_from line mid_prefix.length with
          | .error e => .error e
          | .ok mid1 => ParseMediaSectionLoop lines fuel (first + 1) last mid1 dir
        else if dir.isNone then
          ParseMediaSectionLoop lines fuel (first + 1) last mid (GetDirection line)
        else
          ParseMediaSectionLoop lines fuel (first + 1) last mid dir

/-- The function `SDPUtils::ParseMediaSection(begin, end)` over iterators of `lines`: the type
read from `*begin`, the loop, and the final test `mid.length() > 0 && dir`. -/
def ParseMediaSection (lines : List Str) (fuel first last : Nat) :
    Except Fault (Option MediaSection) :=
  match deref lines first with
  | .error e => .error e
  | .ok header =>
    let type := if StartsWith header "m=audio".toList then MediaType.kAudio else MediaType.kVideo
    match ParseMediaSectionLoop lines fuel first last [] none with
    | .error e => .error e
    | .ok (mid, dir) =>
      match dir with
      | some d => if mid.length > 0 then .ok (some ⟨type, mid, d⟩) else .ok none
      | none => .ok none

/-- The `while (section_start != sdp_end)` loop of `SDPUtils::ParseSDP`, from the state
`(section_start, media_sections)`; `inner` is the fuel of the loops run inside one
iteration. Forming the iterator `section_start + 1` past the end of the vector is the fault
`out_of_range`. -/
def ParseSDPLoop (lines : List Str) (inner : Nat) :
    Nat → Nat → List MediaSection → Except Fault (List MediaSection)
  | 0, _, _ => .error .out_of_fuel
  | fuel + 1, section_start, media_sections =>
    if section_start = lines.length then .ok media_sections
    else if lines.length < section_start + 1 then .error .out_of_range
    else
      match find_if lines is_media_section_header inner (section_start + 1) lines.length with
      | .error e => .error e
      | .ok section_end =>
        match ParseMediaSection lines inner section_start section_end with
        | .error e => .error e
        | .ok (some media_section) =>
          ParseSDPLoop lines inner fuel section_end (media_sections ++ [media_section])
        | .ok none => ParseSDPLoop lines inner fuel section_end media_sections

/-- The part of `SDPUtils::ParseSDP` that follows the split, on a given vector of lines: the
search of the first header and the loop over the windows. -/
def ParseLines (fuel : Nat) (sdp_lines : List Str) : Except Fault (List MediaSection) :=
  match find_if sdp_lines is_media_section_header fuel 0 sdp_lines.length with
  | .error e => .error e
  | .ok section_start => ParseSDPLoop sdp_lines fuel fuel section_start []

/-- The function `SDPUtils::ParseSDP`: the split into lines, the search of the first header
and the loop over the windows. -/
def ParseSDP (fuel : Nat) (sdp : Str) : Except Fault (List MediaSection) :=
  match Split fuel sdp crlf with
  | .error e => .error e
  | .ok sdp_lines =>
    match find_if sdp_lines is_media_section_header fuel 0 sdp_lines.length with
    | .error e => .error e
    | .ok section_start => ParseSDPLoop sdp_lines fuel fuel section_start []

/-! ## Vocabulary of the statements -/

/-- The four direction literals. -/
def direction_literals : List Str := [rec_only, send_only, inactive, sendrecv]

/-- The media-section windows of a line sequence, left to right: one window for each line
beginning with `m=`, made of that line and of the lines after it up to, but not including,
the next line beginning with `m=` (or the end of the sequence). -/
def mediaWindows : List Str → List (List Str)
  | [] => []
  | l :: ls =>
    if is_media_section_header l then
      (l :: ls.takeWhile (fun x => !is_media_section_header x)) :: mediaWindows ls
    else mediaWindows ls

/-- The single-section extraction applied to one window: `ParseMediaSection` run from the
first line of `w` to its end, a fault counting as no section. -/
def sectionOfWindow (w : List Str) : Option MediaSection :=
  match ParseMediaSection w (w.length + 1) 0 w.length with
  | .ok r => r
  | .error _ => none

/-- One iteration of the body of the loop of `ParseMediaSection` on the state `(mid, dir)`. -/
def scanStep (st : Str × Option MediaDirection) (line : Str) : Str × Option MediaDirection :=
  if StartsWith line mid_prefix then (line.drop mid_prefix.length, st.2)
  else if st.2.isNone then (st.1, GetDirection line)
  else st

/-- The strings of a list joined with `d` between consecutive elements. -/
def joinWith (d : Str) : List Str → Str
  | [] => []
  | [x] => x
  | x :: y :: r => x ++ d ++ joinWith d (y :: r)

/-- The value returned by `ParseMediaSection` after its loop, from the header line and the
final state `(mid, dir)`. -/
def sectionOfScan (header : Str) (st : Str × Option MediaDirection) : Option MediaSection :=
  match st.2 with
  | some d =>
    if st.1.length > 0 then
      some ⟨if StartsWith header "m=audio".toList then .kAudio else .kVideo, st.1, d⟩
    else none
  | none => none

/-! ## Example inputs -/

/-- Two sections, the second without an `a=mid:` line. -/
def sdp_audio_and_incomplete_video : Str :=
  "m=audio 9 ...\r\na=mid:0\r\na=sendrecv\r\nm=video 9 ...\r\na=inactive\r\n".toList

/-- One complete audio section. -/
def sdp_single_audio : Str :=
  "m=audio 9 UDP/TLS/RTP/SAVPF 111\r\na=mid:0\r\na=sendrecv\r\n".toList

/-- One section with two `a=mid:` lines. -/
def sdp_duplicate_mid : Str :=
  "m=video 9 ...\r\na=mid:1\r\na=mid:2\r\na=recvonly\r\n".toList

/-- One section whose second `a=mid:` line has nothing after the prefix. -/
def sdp_mid_then_empty_mid : Str :=
  "m=audio 9 ...\r\na=mid:0\r\na=mid:\r\na=sendrecv\r\n".toList

/-- One section with two direction lines and a line that only begins with a literal. -/
def sdp_two_directions : Str :=
  "m=video 9 ...\r\na=sendonly \r\na=inactive\r\na=mid:7\r\na=sendrecv\r\n".toList

/-- No media-section header. -/
def sdp_no_header : Str :=
  "v=0\r\no=- 1 1 IN IP4 0.0.0.0\r\n".toList

/-- One section whose only `a=mid:` line has nothing after the prefix. -/
def sdp_empty_mid : Str :=
  "m=audio 9 ...\r\na=mid:\r\na=sendonly\r\n".toList

/-- An audio, an application and a video section. -/
def sdp_three_kinds : Str :=
  "v=0\r\nm=audio 9\r\na=mid:a\r\na=sendrecv\r\nm=application 9\r\na=mid:d\r\na=inactive\r\nm=video 9\r\na=recvonly\r\na=mid:v".toList

/-! ## The string search and `Split` -/

theorem findFrom_bounds (word : Str) :
    ∀ (s : Str) (i e : Nat), findFrom s word i = some e → i ≤ e ∧ e + word.length ≤ i + s.length := by
  intro s
  induction s with
  | nil =>
    intro i e h
    by_cases hw : word = []
    · simp [findFrom, hw] at h
      subst h
      simp [hw]
    · simp [findFrom, hw] at h
  | cons c cs ih =>
    intro i e h
    unfold findFrom at h
    by_cases hp : word.isPrefixOf (c :: cs) = true
    · rw [if_pos hp] at h
      injection h with h
      subst h
      have hl := (List.isPrefixOf_iff_prefix.mp hp).length_le
      exact ⟨le_refl _, by omega⟩
    · rw [if_neg hp] at h
      have := ih (i + 1) e h
      simp only [List.length_cons]
      omega

theorem find_bounds (str word : Str) (pos e : Nat) (h : find str word pos = some e) :
    pos ≤ e ∧ e + word.length ≤ str.length := by
  unfold find at h
  by_cases hp : pos ≤ str.length
  · rw [if_pos hp] at h
    have := findFrom_bounds word _ _ _ h
    simp only [List.length_drop] at this
    omega
  · rw [if_neg hp] at h
    cases h

/-- With a non-empty delimiter the loop of `Split` returns once the fuel exceeds the number
of characters left, and it appends at most one line for each of them, plus one. -/
theorem SplitLoop_total (str delimiter : Str) (hd : 0 < delimiter.length) :
    ∀ (fuel pos : Nat) (res : List Str), pos ≤ str.length → str.length - pos < fuel →
      ∃ lines, SplitLoop str delimiter fuel pos res = .ok lines ∧
        0 < lines.length ∧ lines.length ≤ res.length + (str.length - pos) + 1 := by
  intro fuel
  induction fuel with
  | zero => intro pos res _ h; omega
  | succ n ih =>
    intro pos res hpos hfuel
    unfold SplitLoop
    cases hf : find str delimiter pos with
    | none =>
      simp only [substr_from, if_pos hpos]
      exact ⟨_, rfl, by simp, by simp⟩
    | some e =>
      have hb := find_bounds _ _ _ _ hf
      simp only [substr, if_pos hpos]
      obtain ⟨lines, h1, h2, h3⟩ := ih (e + delimiter.length) (res ++ [(str.drop pos).take (e - pos)])
        (by omega) (by omega)
      refine ⟨lines, h1, h2, ?_⟩
      simp only [List.length_append, List.length_singleton] at h3
      omega

theorem Split_total (fuel : Nat) (str delimiter : Str) (hd : 0 < delimiter.length)
    (hf : str.length + 1 ≤ fuel) :
    ∃ lines, Split fuel str delimiter = .ok lines ∧ 0 < lines.length ∧
      lines.length ≤ str.length + 1 := by
  obtain ⟨lines, h1, h2, h3⟩ := SplitLoop_total str delimiter hd fuel 0 [] (Nat.zero_le _) (by omega)
  exact ⟨lines, h1, h2, by simpa using h3⟩

/-! ## The iterator loops -/

theorem deref_append (pre suf : List Str) (l : Str) :
    deref (pre ++ l :: suf) pre.length = .ok l := by
  unfold deref
  rw [List.getElem?_append_right (le_refl _)]
  simp

/-- Run from the end of `pre` to the end of the vector, `find_if` stops after the longest
run of lines that fail `p`. -/
theorem find_if_spec (p : Str → Bool) :
    ∀ (suf pre : List Str) (fuel : Nat), suf.length < fuel →
      find_if (pre ++ suf) p fuel pre.length (pre ++ suf).length
        = .ok (pre.length + (suf.takeWhile (fun x => !p x)).length) := by
  intro suf
  induction suf with
  | nil =>
    intro pre fuel hf
    cases fuel with
    | zero => omega
    | succ n => simp [find_if]
  | cons l t ih =>
    intro pre fuel hf
    cases fuel with
    | zero => omega
    | succ n =>
      unfold find_if
      have hne : ¬ pre.length = (pre ++ l :: t).length := by simp
      rw [if_neg hne, deref_append]
      by_cases hp : p l = true
      · simp [hp]
      · simp only [hp]
        have h := ih (pre ++ [l]) n (by simpa using hf)
        simp only [List.append_assoc, List.singleton_append, List.length_append,
          List.length_singleton] at h
        simp only [Bool.false_eq_true, if_false]
        rw [List.length_append, h]
        simp [hp]
        omega

theorem StartsWith_length (str pfx : Str) (h : StartsWith str pfx = true) :
    pfx.length ≤ str.length := by
  unfold StartsWith at h
  have h1 : str.take pfx.length = pfx := by simpa using h
  have h2 := congrArg List.length h1
  simp only [List.length_take] at h2
  omega

/-- Run over the lines `w` of a vector `pre ++ w ++ post`, the loop of `ParseMediaSection`
folds `scanStep` over `w`. -/
theorem ParseMediaSectionLoop_spec :
    ∀ (w pre post : List Str) (fuel : Nat) (mid : Str) (dir : Option MediaDirection),
      w.length < fuel →
      ParseMediaSectionLoop (pre ++ w ++ post) fuel pre.length (pre.length + w.length) mid dir
        = .ok (w.foldl scanStep (mid, dir)) := by
  intro w
  induction w with
  | nil =>
    intro pre post fuel mid dir hf
    cases fuel with
    | zero => omega
    | succ n => simp [ParseMediaSectionLoop]
  | cons l t ih =>
    intro pre post fuel mid dir hf
    cases fuel with
    | zero => omega
    | succ n =>
      unfold ParseMediaSectionLoop
      have hne : ¬ pre.length = pre.length + (l :: t).length := by simp
      have hd : deref (pre ++ l :: t ++ post) pre.length = .ok l := by
        rw [List.append_assoc, List.cons_append]; exact deref_append _ _ _
      have hrec := fun m d => ih (pre ++ [l]) post n m d (by simpa using hf)
      have hlen : (pre ++ [l]).length + t.length = pre.length + (l :: t).length := by
        simp; omega
      have hl : pre ++ [l] ++ t ++ post = pre ++ l :: t ++ post := by simp
      have hlen1 : (pre ++ [l]).length = pre.length + 1 := by simp
      rw [hlen, hl, hlen1] at hrec
      rw [if_neg hne, hd]
      simp only [List.foldl_cons]
      by_cases hm : StartsWith l mid_prefix = true
      · have hle := StartsWith_length _ _ hm
        simp only [hm, if_true, substr_from, if_pos hle, hrec, scanStep]
      · by_cases hdir : dir.isNone = true
        · simp only [hm, hdir, if_true, hrec, scanStep, Bool.false_eq_true, if_false]
        · simp only [hm, hdir, hrec, scanStep, Bool.false_eq_true, if_false]

theorem ParseMediaSection_spec (h : Str) (t pre post : List Str) (fuel : Nat)
    (hf : (h :: t).length < fuel) :
    ParseMediaSection (pre ++ h :: t ++ post) fuel pre.length (pre.length + (h :: t).length)
      = .ok (sectionOfScan h ((h :: t).foldl scanStep ([], none))) := by
  unfold ParseMediaSection
  have hd : deref (pre ++ h :: t ++ post) pre.length = .ok h := by
    rw [List.append_assoc, List.cons_append]; exact deref_append _ _ _
  rw [hd, ParseMediaSectionLoop_spec (h :: t) pre post fuel [] none hf]
  simp only [sectionOfScan]
  rcases (List.foldl scanStep ([], none) (h :: t)) with ⟨mid, dir⟩
  cases dir with
  | none => rfl
  | some d =>
    by_cases hm : mid.length > 0
    · simp only [if_pos hm]
    · simp only [if_neg hm]

theorem sectionOfWindow_cons (h : Str) (t : List Str) :
    sectionOfWindow (h :: t) = sectionOfScan h ((h :: t).foldl scanStep ([], none)) := by
  have := ParseMediaSection_spec h t [] [] ((h :: t).length + 1) (Nat.lt_succ_self _)
  simp only [List.nil_append, List.append_nil, List.length_nil, Nat.zero_add] at this
  unfold sectionOfWindow
  rw [this]

/-! ## The windows and the main loop -/

theorem dropWhile_head_header (h : Str) (r : List Str) :
    ∀ (t : List Str), t.dropWhile (fun x => !is_media_section_header x) = h :: r →
      is_media_section_header h = true := by
  intro t
  induction t with
  | nil => intro hx; simp at hx
  | cons a t ih =>
    intro hx
    by_cases ha : is_media_section_header a = true
    · simp [List.dropWhile, ha] at hx
      rw [← hx.1]; exact ha
    · simp [List.dropWhile, ha] at hx
      exact ih hx

theorem mediaWindows_dropWhile :
    ∀ (t : List Str),
      mediaWindows (t.dropWhile (fun x => !is_media_section_header x)) = mediaWindows t := by
  intro t
  induction t with
  | nil => rfl
  | cons a t ih =>
    by_cases ha : is_media_section_header a = true
    · simp [List.dropWhile, ha]
    · simp [List.dropWhile, ha, mediaWindows, ih]

theorem mediaWindows_cons_header (h : Str) (t : List Str)
    (hh : is_media_section_header h = true) :
    mediaWindows (h :: t) =
      (h :: t.takeWhile (fun x => !is_media_section_header x)) ::
        mediaWindows (t.dropWhile (fun x => !is_media_section_header x)) := by
  rw [mediaWindows_dropWhile]
  simp [mediaWindows, hh]

/-- Started at a header line (or at the end), the loop of `ParseSDP` appends the sections of
the windows of the remaining lines, in order. -/
theorem ParseSDPLoop_spec (inner : Nat) :
    ∀ (fuel : Nat) (pre suf : List Str) (acc : List MediaSection),
      (∀ h t, suf = h :: t → is_media_section_header h = true) →
      suf.length < fuel → (pre ++ suf).length < inner →
      ParseSDPLoop (pre ++ suf) inner fuel pre.length acc
        = .ok (acc ++ (mediaWindows suf).filterMap sectionOfWindow) := by
  intro fuel
  induction fuel with
  | zero => intro pre suf acc _ h; omega
  | succ n ih =>
    intro pre suf acc hhead hfuel hinner
    cases suf with
    | nil => simp [ParseSDPLoop, mediaWindows]
    | cons h t =>
      have hh := hhead h t rfl
      unfold ParseSDPLoop
      have hne : ¬ pre.length = (pre ++ h :: t).length := by simp
      have hin : ¬ (pre ++ h :: t).length < pre.length + 1 := by simp
      rw [if_neg hne, if_neg hin]
      have hfind := find_if_spec is_media_section_header t (pre ++ [h]) inner
        (by simp at hinner ⊢; omega)
      simp only [List.append_assoc, List.singleton_append, List.length_append,
        List.length_singleton] at hfind
      rw [List.length_append, hfind]
      simp only []
      have hsplit : t.takeWhile (fun x => !is_media_section_header x) ++
          t.dropWhile (fun x => !is_media_section_header x) = t :=
        List.takeWhile_append_dropWhile _ _
      generalize htw : t.takeWhile (fun x => !is_media_section_header x) = tw at *
      generalize hdw : t.dropWhile (fun x => !is_media_section_header x) = dw at *
      have hlines : pre ++ h :: t = pre ++ h :: tw ++ dw := by
        rw [← hsplit]; simp
      have htl : tw.length + dw.length = t.length := by
        rw [← hsplit]; simp
      have hlen : pre.length + 1 + tw.length = pre.length + (h :: tw).length := by
        simp; omega
      have hpms : ParseMediaSection (pre ++ h :: t) inner pre.length (pre.length + 1 + tw.length)
          = .ok (sectionOfWindow (h :: tw)) := by
        rw [hlines, hlen, sectionOfWindow_cons]
        apply ParseMediaSection_spec
        simp at hinner ⊢
        omega
      rw [hpms, mediaWindows_cons_header h t hh, htw, hdw]
      have hrec := fun a => ih (pre ++ h :: tw) dw a
        (fun x r hx => dropWhile_head_header x r t (by rw [hdw]; exact hx))
        (by simp at hfuel; omega)
        (by rw [← hlines]; exact hinner)
      have hlen2 : (pre ++ h :: tw).length = pre.length + 1 + tw.length := by
        simp; omega
      simp only [hlen2, ← hlines] at hrec
      cases hsec : sectionOfWindow (h :: tw) with
      | none => simp only [hrec, List.filterMap_cons, hsec]
      | some m => simp only [hrec, List.filterMap_cons, hsec, List.append_assoc,
          List.singleton_append]

/-- The function `ParseSDP` returns, in order, the sections of the windows of the split
lines. -/
theorem ParseSDP_eq (fuel : Nat) (sdp : Str) (lines : List Str)
    (hf : sdp.length + 2 ≤ fuel) (hs : Split fuel sdp crlf = .ok lines) :
    ParseSDP fuel sdp = .ok ((mediaWindows lines).filterMap sectionOfWindow) := by
  obtain ⟨lines1, h1, _, h3⟩ := Split_total fuel sdp crlf (by decide) (by omega)
  rw [hs] at h1
  injection h1 with h1
  subst h1
  unfold ParseSDP
  rw [hs]
  simp only []
  have hfind := find_if_spec is_media_section_header lines [] fuel (by omega)
  simp only [List.nil_append, List.length_nil, Nat.zero_add] at hfind
  rw [hfind]
  simp only []
  have hsplit : lines.takeWhile (fun x => !is_media_section_header x) ++
      lines.dropWhile (fun x => !is_media_section_header x) = lines :=
    List.takeWhile_append_dropWhile _ _
  have hloop := ParseSDPLoop_spec fuel fuel
    (lines.takeWhile (fun x => !is_media_section_header x))
    (lines.dropWhile (fun x => !is_media_section_header x)) []
    (fun x r hx => dropWhile_head_header x r lines hx)
    (by
      have := congrArg List.length hsplit
      simp only [List.length_append] at this
      omega)
    (by rw [hsplit]; omega)
  rw [hsplit, mediaWindows_dropWhile] at hloop
  rw [hloop]
  simp

theorem mediaWindows_shape :
    ∀ (lines w : List Str), w ∈ mediaWindows lines →
      ∃ h t, w = h :: t ∧ is_media_section_header h = true ∧
        ∀ x ∈ t, is_media_section_header x = false := by
  intro lines
  induction lines with
  | nil => intro w hw; simp [mediaWindows] at hw
  | cons a t ih =>
    intro w hw
    by_cases ha : is_media_section_header a = true
    · simp only [mediaWindows, ha, if_true, List.mem_cons] at hw
      rcases hw with hw | hw
      · refine ⟨a, _, hw, ha, ?_⟩
        intro x hx
        have := List.mem_takeWhile_imp hx
        simpa using this
      · exact ih w hw
    · simp only [mediaWindows, ha, Bool.false_eq_true, if_false] at hw
      exact ih w hw

theorem mediaWindows_flatten :
    ∀ (lines : List Str),
      (mediaWindows lines).flatten = lines.dropWhile (fun x => !is_media_section_header x) := by
  intro lines
  induction lines with
  | nil => rfl
  | cons a t ih =>
    by_cases ha : is_media_section_header a = true
    · simp only [mediaWindows, ha, if_true, List.flatten_cons, ih, List.dropWhile_cons,
        Bool.not_true, Bool.false_eq_true, if_false, List.cons_append,
        List.takeWhile_append_dropWhile]
    · simp only [mediaWindows, ha, Bool.false_eq_true, if_false, ih, List.dropWhile_cons,
        Bool.not_false, if_true]

theorem mediaWindows_length :
    ∀ (lines : List Str),
      (mediaWindows lines).length = lines.countP is_media_section_header := by
  intro lines
  induction lines with
  | nil => rfl
  | cons a t ih =>
    by_cases ha : is_media_section_header a = true
    · simp [mediaWindows, ha, ih, List.countP_cons]
    · simp [mediaWindows, ha, ih, List.countP_cons]

theorem mediaWindows_of_no_header :
    ∀ (lines : List Str), (∀ l ∈ lines, is_media_section_header l = false) →
      mediaWindows lines = [] := by
  intro lines
  induction lines with
  | nil => intro _; rfl
  | cons a t ih =>
    intro h
    have ha := h a (List.mem_cons_self _ _)
    simp only [mediaWindows, ha, Bool.false_eq_true, if_false]
    exact ih (fun l hl => h l (List.mem_cons_of_mem _ hl))

/-! ## The scan of one window -/

theorem GetDirection_eq_none (l : Str) (h : l ∉ direction_literals) : GetDirection l = none := by
  simp only [direction_literals, List.mem_cons, List.mem_singleton, List.not_mem_nil,
    or_false, not_or] at h
  obtain ⟨h1, h2, h3, h4⟩ := h
  simp [GetDirection, h1, h2, h3, h4]

theorem GetDirection_mem (l : Str) (d : MediaDirection) (h : GetDirection l = some d) :
    l ∈ direction_literals := by
  by_contra hn
  rw [GetDirection_eq_none l hn] at h
  cases h

theorem GetDirection_isSome (l : Str) (h : l ∈ direction_literals) :
    (GetDirection l).isSome = true := by
  simp only [direction_literals, List.mem_cons, List.mem_singleton, List.not_mem_nil,
    or_false] at h
  rcases h with h | h | h | h <;> subst h <;> decide

theorem literal_not_mid (l : Str) (h : l ∈ direction_literals) :
    StartsWith l mid_prefix = false := by
  simp only [direction_literals, List.mem_cons, List.mem_singleton, List.not_mem_nil,
    or_false] at h
  rcases h with h | h | h | h <;> subst h <;> decide

theorem scan_snd_of_some (d : MediaDirection) :
    ∀ (w : List Str) (st : Str × Option MediaDirection), st.2 = some d →
      (w.foldl scanStep st).2 = some d := by
  intro w
  induction w with
  | nil => intro st h; exact h
  | cons a t ih =>
    intro st h
    rw [List.foldl_cons]
    apply ih
    unfold scanStep
    by_cases hm : StartsWith a mid_prefix = true
    · simp [hm, h]
    · simp [hm, h]

theorem scan_fst_of_no_mid :
    ∀ (w : List Str) (st : Str × Option MediaDirection),
      (∀ l ∈ w, StartsWith l mid_prefix = false) → (w.foldl scanStep st).1 = st.1 := by
  intro w
  induction w with
  | nil => intro st _; rfl
  | cons a t ih =>
    intro st h
    rw [List.foldl_cons, ih _ (fun l hl => h l (List.mem_cons_of_mem _ hl))]
    have ha := h a (List.mem_cons_self _ _)
    unfold scanStep
    by_cases hd : st.2.isNone = true
    · simp [ha, hd]
    · simp [ha, hd]

theorem scan_snd_of_no_dir :
    ∀ (w : List Str) (st : Str × Option MediaDirection), st.2 = none →
      (∀ l ∈ w, l ∉ direction_literals) → (w.foldl scanStep st).2 = none := by
  intro w
  induction w with
  | nil => intro st h _; exact h
  | cons a t ih =>
    intro st h hno
    rw [List.foldl_cons]
    apply ih _ _ (fun l hl => hno l (List.mem_cons_of_mem _ hl))
    have ha := GetDirection_eq_none a (hno a (List.mem_cons_self _ _))
    unfold scanStep
    by_cases hm : StartsWith a mid_prefix = true
    · simp [hm, h]
    · simp [hm, h, ha]

theorem scan_snd_of_dir :
    ∀ (w : List Str) (st : Str × Option MediaDirection),
      (∃ l ∈ w, l ∈ direction_literals) → ((w.foldl scanStep st).2).isSome = true := by
  intro w
  induction w with
  | nil => intro st h; simp at h
  | cons a t ih =>
    intro st h
    rw [List.foldl_cons]
    obtain ⟨l, hl, hlit⟩ := h
    rcases List.mem_cons.mp hl with rfl | hl
    · have hsome : ((scanStep st l).2).isSome = true := by
        unfold scanStep
        rw [literal_not_mid l hlit]
        by_cases hd : st.2.isNone = true
        · simp [hd, GetDirection_isSome l hlit]
        · simp only [Bool.false_eq_true, if_false, hd]
          cases h2 : st.2 with
          | none => simp [h2] at hd
          | some d => rfl
      obtain ⟨d, hd⟩ := Option.isSome_iff_exists.mp hsome
      rw [scan_snd_of_some d t _ hd]
      rfl
    · exact ih _ ⟨l, hl, hlit⟩

/-- The identifier left by the scan is the remainder of the last line beginning with
`a=mid:`, when there is one. -/
theorem scan_fst_last_mid (pre post : List Str) (l : Str) (st : Str × Option MediaDirection)
    (hl : StartsWith l mid_prefix = true)
    (hpost : ∀ x ∈ post, StartsWith x mid_prefix = false) :
    ((pre ++ l :: post).foldl scanStep st).1 = l.drop mid_prefix.length := by
  rw [List.foldl_append, List.foldl_cons, scan_fst_of_no_mid post _ hpost]
  simp [scanStep, hl]

/-- Either no line satisfies `p`, or there is a last line that does. -/
theorem last_occurrence_cases (p : Str → Bool) :
    ∀ (w : List Str),
      (∀ l ∈ w, p l = false) ∨
      ∃ pre l post, w = pre ++ l :: post ∧ p l = true ∧ ∀ x ∈ post, p x = false := by
  intro w
  induction w with
  | nil => left; intro l hl; cases hl
  | cons a t ih =>
    rcases ih with h | ⟨pre, l, post, h1, h2, h3⟩
    · by_cases ha : p a = true
      · right
        exact ⟨[], a, t, rfl, ha, h⟩
      · left
        intro l hl
        rcases List.mem_cons.mp hl with rfl | hl
        · simpa using ha
        · exact h l hl
    · right
      exact ⟨a :: pre, l, post, by rw [h1]; rfl, h2, h3⟩

/-- Either no line satisfies `p`, or there is a first line that does. -/
theorem first_occurrence_cases (p : Str → Bool) :
    ∀ (w : List Str),
      (∀ l ∈ w, p l = false) ∨
      ∃ pre l post, w = pre ++ l :: post ∧ p l = true ∧ ∀ x ∈ pre, p x = false := by
  intro w
  induction w with
  | nil => left; intro l hl; cases hl
  | cons a t ih =>
    by_cases ha : p a = true
    · right
      exact ⟨[], a, t, rfl, ha, fun x hx => by cases hx⟩
    · rcases ih with h | ⟨pre, l, post, h1, h2, h3⟩
      · left
        intro l hl
        rcases List.mem_cons.mp hl with rfl | hl
        · simpa using ha
        · exact h l hl
      · right
        refine ⟨a :: pre, l, post, by rw [h1]; rfl, h2, ?_⟩
        intro x hx
        rcases List.mem_cons.mp hx with rfl | hx
        · simpa using ha
        · exact h3 x hx

/-- The direction left by a scan started without one is the one of the first line equal to
a direction literal. -/
theorem scan_snd_first_dir (pre post : List Str) (l : Str) (st : Str × Option MediaDirection)
    (hst : st.2 = none) (hl : l ∈ direction_literals)
    (hpre : ∀ x ∈ pre, x ∉ direction_literals) :
    ((pre ++ l :: post).foldl scanStep st).2 = GetDirection l := by
  rw [List.foldl_append, List.foldl_cons]
  have h1 := scan_snd_of_no_dir pre st hst hpre
  obtain ⟨d, hd⟩ := Option.isSome_iff_exists.mp (GetDirection_isSome l hl)
  rw [hd]
  apply scan_snd_of_some
  simp [scanStep, literal_not_mid l hl, h1, hd]

theorem scan_fst_of_empty_mids :
    ∀ (w : List Str) (st : Str × Option MediaDirection), st.1 = [] →
      (∀ l ∈ w, StartsWith l mid_prefix = true → l = mid_prefix) →
      (w.foldl scanStep st).1 = [] := by
  intro w
  induction w with
  | nil => intro st h _; exact h
  | cons a t ih =>
    intro st h hall
    rw [List.foldl_cons]
    apply ih _ _ (fun l hl => hall l (List.mem_cons_of_mem _ hl))
    unfold scanStep
    by_cases hm : StartsWith a mid_prefix = true
    · rw [if_pos hm, hall a (List.mem_cons_self _ _) hm]
      rfl
    · by_cases hd : st.2.isNone = true
      · simp [hm, hd, h]
      · simp [hm, hd, h]

/-! ## The section of one window -/

theorem sectionOfWindow_some (w : List Str) (m : MediaSection)
    (h : sectionOfWindow w = some m) :
    ∃ hd tl, w = hd :: tl ∧
      (w.foldl scanStep ([], none)).1 = m.identifier ∧
      (w.foldl scanStep ([], none)).2 = some m.direction ∧
      0 < m.identifier.length ∧
      m.kind = (if StartsWith hd "m=audio".toList then MediaType.kAudio else MediaType.kVideo) := by
  cases w with
  | nil =>
    have hnil : sectionOfWindow ([] : List Str) = none := rfl
    rw [hnil] at h
    cases h
  | cons hd tl =>
    refine ⟨hd, tl, rfl, ?_⟩
    rw [sectionOfWindow_cons] at h
    unfold sectionOfScan at h
    generalize List.foldl scanStep ([], none) (hd :: tl) = st at h ⊢
    obtain ⟨mid, dir⟩ := st
    cases dir with
    | none => cases h
    | some d =>
      simp only at h
      by_cases hm : mid.length > 0
      · rw [if_pos hm] at h
        injection h with h
        subst h
        exact ⟨rfl, rfl, hm, rfl⟩
      · rw [if_neg hm] at h
        cases h

theorem sectionOfWindow_none_of_mid (w : List Str)
    (h : (w.foldl scanStep ([], none)).1 = []) : sectionOfWindow w = none := by
  cases hs : sectionOfWindow w with
  | none => rfl
  | some m =>
    obtain ⟨_, _, _, h1, _, h3, _⟩ := sectionOfWindow_some w m hs
    rw [← h1, h] at h3
    cases h3

theorem sectionOfWindow_none_of_dir (w : List Str)
    (h : (w.foldl scanStep ([], none)).2 = none) : sectionOfWindow w = none := by
  cases hs : sectionOfWindow w with
  | none => rfl
  | some m =>
    obtain ⟨_, _, _, _, h2, _, _⟩ := sectionOfWindow_some w m hs
    rw [h] at h2
    cases h2

theorem sectionOfWindow_isSome (hd : Str) (tl : List Str)
    (h1 : 0 < (((hd :: tl).foldl scanStep ([], none)).1).length)
    (h2 : (((hd :: tl).foldl scanStep ([], none)).2).isSome = true) :
    ∃ m, sectionOfWindow (hd :: tl) = some m := by
  rw [sectionOfWindow_cons]
  unfold sectionOfScan
  generalize List.foldl scanStep ([], none) (hd :: tl) = st at h1 h2 ⊢
  obtain ⟨mid, dir⟩ := st
  cases dir with
  | none => cases h2
  | some d =>
    simp only at h1 ⊢
    rw [if_pos h1]
    exact ⟨_, rfl⟩

theorem filterMap_filter_ne {α β : Type} [DecidableEq α] (f : α → Option β) (w : α)
    (hw : f w = none) :
    ∀ (l : List α), (l.filter (fun v => decide (v ≠ w))).filterMap f = l.filterMap f := by
  intro l
  induction l with
  | nil => rfl
  | cons a t ih =>
    by_cases ha : a = w
    · subst ha
      simp only [ne_eq, decide_not] at ih
      simp [List.filter_cons, List.filterMap_cons, hw, ih]
    · simp only [ne_eq, decide_not] at ih
      simp [List.filter_cons, List.filterMap_cons, ha, ih]

theorem filterMap_eq_flatMap_toList {α β : Type} (f : α → Option β) :
    ∀ (l : List α), l.filterMap f = l.flatMap (fun v => (f v).toList) := by
  intro l
  induction l with
  | nil => rfl
  | cons a t ih =>
    cases ha : f a with
    | none => simp [List.filterMap_cons, List.flatMap_cons, ha, ih]
    | some b => simp [List.filterMap_cons, List.flatMap_cons, ha, ih]

theorem mem_ParseSDP_of_window (fuel : Nat) (sdp : Str) (lines w : List Str) (m : MediaSection)
    (hf : sdp.length + 2 ≤ fuel) (hs : Split fuel sdp crlf = .ok lines)
    (hw : w ∈ mediaWindows lines) (hm : sectionOfWindow w = some m) :
    ∃ r, ParseSDP fuel sdp = .ok r ∧ m ∈ r :=
  ⟨_, ParseSDP_eq fuel sdp lines hf hs, List.mem_filterMap.mpr ⟨w, hw, hm⟩⟩

/-- On a window taken as a vector of its own, `ParseMediaSection` does not fault. -/
theorem ParseMediaSection_window (hd : Str) (tl : List Str) :
    ParseMediaSection (hd :: tl) ((hd :: tl).length + 1) 0 (hd :: tl).length
      = .ok (sectionOfWindow (hd :: tl)) := by
  have := ParseMediaSection_spec hd tl [] [] ((hd :: tl).length + 1) (Nat.lt_succ_self _)
  simp only [List.nil_append, List.append_nil, List.length_nil, Nat.zero_add] at this
  rw [this, sectionOfWindow_cons]

/-- One iteration of the loop of `ParseSDP` from a state whose `section_start` is at a
header line `h`: the search of the next header starts inside the vector and stops strictly
after `section_start`, at a header line or at the end, and the extraction does not fault. -/
theorem ParseSDP_iteration (fuel : Nat) (pre t : List Str) (h : Str)
    (hfuel : (pre ++ h :: t).length < fuel) :
    ∃ j sec,
      find_if (pre ++ h :: t) is_media_section_header fuel (pre.length + 1)
        (pre ++ h :: t).length = .ok j ∧
      pre.length < j ∧ j ≤ (pre ++ h :: t).length ∧
      (∀ l, (pre ++ h :: t)[j]? = some l → is_media_section_header l = true) ∧
      ParseMediaSection (pre ++ h :: t) fuel pre.length j = .ok sec := by
  have hfind := find_if_spec is_media_section_header t (pre ++ [h]) fuel
    (by simp at hfuel ⊢; omega)
  simp only [List.append_assoc, List.singleton_append, List.length_append,
    List.length_singleton] at hfind
  have hsplit : t.takeWhile (fun x => !is_media_section_header x) ++
      t.dropWhile (fun x => !is_media_section_header x) = t :=
    List.takeWhile_append_dropWhile _ _
  generalize htw : t.takeWhile (fun x => !is_media_section_header x) = tw at *
  generalize hdw : t.dropWhile (fun x => !is_media_section_header x) = dw at *
  have hlines : pre ++ h :: t = pre ++ h :: tw ++ dw := by
    rw [← hsplit]; simp
  have htl : tw.length + dw.length = t.length := by
    rw [← hsplit]; simp
  have hlen : pre.length + 1 + tw.length = pre.length + (h :: tw).length := by
    simp; omega
  refine ⟨pre.length + 1 + tw.length, sectionOfWindow (h :: tw), ?_, by omega, ?_, ?_, ?_⟩
  · rw [List.length_append]; exact hfind
  · simp only [List.length_append, List.length_cons]; omega
  · intro l hl
    rw [hlines, hlen, ← List.length_append,
      List.getElem?_append_right (le_refl _)] at hl
    simp only [Nat.sub_self] at hl
    cases dw with
    | nil => simp at hl
    | cons x r =>
      simp only [List.getElem?_cons_zero, Option.some.injEq] at hl
      subst hl
      exact dropWhile_head_header x r t hdw
  · rw [hlines, hlen, sectionOfWindow_cons]
    apply ParseMediaSection_spec
    simp at hfuel ⊢
    omega

/-! ## The string search, as the leftmost occurrence -/

theorem findFrom_some_spec (word : Str) :
    ∀ (s : Str) (i e : Nat), findFrom s word i = some e →
      ∃ a b, s = a ++ word ++ b ∧ e = i + a.length ∧
        ∀ a1 b1, s = a1 ++ word ++ b1 → a.length ≤ a1.length := by
  intro s
  induction s with
  | nil =>
    intro i e h
    by_cases hw : word = []
    · simp [findFrom, hw] at h
      subst h
      exact ⟨[], [], by simp [hw], by simp, fun _ _ _ => Nat.zero_le _⟩
    · simp [findFrom, hw] at h
  | cons c cs ih =>
    intro i e h
    unfold findFrom at h
    by_cases hp : word.isPrefixOf (c :: cs) = true
    · rw [if_pos hp] at h
      injection h with h
      subst h
      obtain ⟨b, hb⟩ := List.isPrefixOf_iff_prefix.mp hp
      exact ⟨[], b, by simp [hb], by simp, fun _ _ _ => Nat.zero_le _⟩
    · rw [if_neg hp] at h
      obtain ⟨a, b, hs, he, hmin⟩ := ih (i + 1) e h
      refine ⟨c :: a, b, by rw [hs]; rfl, by simp [he]; omega, ?_⟩
      intro a1 b1 h1
      cases a1 with
      | nil =>
        exfalso
        apply hp
        apply List.isPrefixOf_iff_prefix.mpr
        exact ⟨b1, by simpa using h1.symm⟩
      | cons x a2 =>
        simp only [List.cons_append, List.cons.injEq] at h1
        have := hmin a2 b1 (by simpa using h1.2)
        simp only [List.length_cons]
        omega

theorem findFrom_none_spec (word : Str) :
    ∀ (s : Str) (i : Nat), findFrom s word i = none → ¬ word <:+: s := by
  intro s
  induction s with
  | nil =>
    intro i h hin
    have hw : word = [] := List.eq_nil_of_infix_nil hin
    simp [findFrom, hw] at h
  | cons c cs ih =>
    intro i h hin
    unfold findFrom at h
    by_cases hp : word.isPrefixOf (c :: cs) = true
    · rw [if_pos hp] at h
      cases h
    · rw [if_neg hp] at h
      rcases List.infix_cons_iff.mp hin with h1 | h1
      · exact hp (List.isPrefixOf_iff_prefix.mpr h1)
      · exact ih (i + 1) h h1

/-- A successful `find` from `pos` returns the leftmost occurrence of `word` in the part of
the string that starts at `pos`. -/
theorem find_some_spec (str word : Str) (pos e : Nat) (h : find str word pos = some e) :
    pos ≤ str.length ∧
    ∃ a b, str.drop pos = a ++ word ++ b ∧ e = pos + a.length ∧
      ∀ a1 b1, str.drop pos = a1 ++ word ++ b1 → a.length ≤ a1.length := by
  unfold find at h
  by_cases hp : pos ≤ str.length
  · rw [if_pos hp] at h
    exact ⟨hp, findFrom_some_spec word _ _ _ h⟩
  · rw [if_neg hp] at h
    cases h

/-- A failed `find` from a position inside the string means that `word` does not occur in
the part of the string that starts there. -/
theorem find_none_spec (str word : Str) (pos : Nat) (hp : pos ≤ str.length)
    (h : find str word pos = none) : ¬ word <:+: str.drop pos := by
  unfold find at h
  rw [if_pos hp] at h
  exact findFrom_none_spec word _ _ h

/-- When `word` occurs in the string, `find` from the start succeeds. -/
theorem find_isSome_of_occurrence (str word : Str) (h : word <:+: str) :
    ∃ e, find str word 0 = some e := by
  cases hf : find str word 0 with
  | some e => exact ⟨e, rfl⟩
  | none =>
    exact absurd h (by simpa using find_none_spec str word 0 (Nat.zero_le _) hf)

/-- The part of the string before the leftmost occurrence of a non-empty `word` holds no
occurrence of `word`. -/
theorem absent_before_leftmost (s a b word : Str) (hw : 0 < word.length)
    (hs : s = a ++ word ++ b)
    (hmin : ∀ a1 b1, s = a1 ++ word ++ b1 → a.length ≤ a1.length) :
    ¬ word <:+: a := by
  rintro ⟨a1, b1, h1⟩
  have := hmin a1 (b1 ++ word ++ b) (by rw [hs, ← h1]; simp)
  have hl := congrArg List.length h1
  simp only [List.length_append] at hl
  omega

/-! ## What `Split` returns -/

theorem joinWith_cons (d a : Str) (toks : List Str) (h : toks ≠ []) :
    joinWith d (a :: toks) = a ++ d ++ joinWith d toks := by
  cases toks with
  | nil => exact absurd rfl h
  | cons y r => rfl

/-- The lines appended by the loop of `Split` from `pos_start` on, joined with the
delimiter, are the part of the string that starts at `pos_start`, and none of them holds
the delimiter. -/
theorem SplitLoop_join (str d : Str) (hd : 0 < d.length) :
    ∀ (fuel pos : Nat) (res lines : List Str), pos ≤ str.length →
      SplitLoop str d fuel pos res = .ok lines →
      ∃ toks, lines = res ++ toks ∧ toks ≠ [] ∧ joinWith d toks = str.drop pos ∧
        ∀ t ∈ toks, ¬ d <:+: t := by
  intro fuel
  induction fuel with
  | zero => intro pos res lines _ h; simp [SplitLoop] at h
  | succ n ih =>
    intro pos res lines hpos h
    unfold SplitLoop at h
    cases hf : find str d pos with
    | none =>
      rw [hf] at h
      simp only [substr_from, if_pos hpos] at h
      injection h with h
      refine ⟨[str.drop pos], h.symm, by simp, rfl, ?_⟩
      intro t ht
      rw [List.mem_singleton.mp ht]
      exact find_none_spec str d pos hpos hf
    | some e =>
      rw [hf] at h
      have hb := find_bounds _ _ _ _ hf
      obtain ⟨_, a, b, hs, he, hmin⟩ := find_some_spec _ _ _ _ hf
      simp only [substr, if_pos hpos] at h
      have htok : (str.drop pos).take (e - pos) = a := by
        rw [hs, he]
        simp
      rw [htok] at h
      obtain ⟨toks, h1, h2, h3, h4⟩ := ih (e + d.length) (res ++ [a]) lines (by omega) h
      have hrest : str.drop (e + d.length) = b := by
        have : e + d.length = pos + (a.length + d.length) := by omega
        rw [this, ← List.drop_drop, hs]
        simp
      refine ⟨a :: toks, by rw [h1]; simp, by simp, ?_, ?_⟩
      · rw [joinWith_cons d a toks h2, h3, hrest, hs]
      · intro t ht
        rcases List.mem_cons.mp ht with rfl | ht
        · exact absent_before_leftmost _ _ b d hd hs hmin
        · exact h4 t ht

theorem findFrom_none_of_absent (word s : Str) (i : Nat) (h : ¬ word <:+: s) :
    findFrom s word i = none := by
  cases hf : findFrom s word i with
  | none => rfl
  | some e =>
    obtain ⟨a, b, hs, _, _⟩ := findFrom_some_spec word s i e hf
    exact absurd ⟨a, b, hs.symm⟩ h

/-- In a line free of `\r\n` followed by `\r\n`, the leftmost `\r\n` is the one that
follows the line. -/
theorem findFrom_crlf_after_line (l rest : Str) (i : Nat) (h : ¬ crlf <:+: l) :
    findFrom (l ++ crlf ++ rest) crlf i = some (i + l.length) := by
  cases hf : findFrom (l ++ crlf ++ rest) crlf i with
  | none =>
    exact absurd ⟨l, rest, rfl⟩ (findFrom_none_spec crlf _ i hf)
  | some e =>
    obtain ⟨a, b, hs, he, hmin⟩ := findFrom_some_spec crlf _ i e hf
    have hle := hmin l rest rfl
    have hc : crlf = ['\r', '\n'] := rfl
    rcases Nat.lt_or_ge a.length l.length with hlt | hge
    · exfalso
      rw [List.append_assoc, List.append_assoc] at hs
      rcases List.append_eq_append_iff.mp hs with ⟨a1, h1, h2⟩ | ⟨c1, h1, h2⟩
      · have hl := congrArg List.length h1
        simp only [List.length_append] at hl
        cases a1 with
        | nil =>
          rw [h1] at hlt
          simp at hlt
        | cons x a2 =>
          simp only [List.length_cons] at hl
          omega
      · cases c1 with
        | nil =>
          rw [h1] at hlt
          simp at hlt
        | cons x c2 =>
          cases c2 with
          | nil =>
            rw [hc] at h2
            simp at h2
          | cons y c3 =>
            rw [hc] at h2
            simp only [List.cons_append, List.cons.injEq] at h2
            apply h
            rw [h1, hc, ← h2.1, ← h2.2.1]
            exact ⟨a, c3, by simp⟩
    · have : a.length = l.length := by omega
      rw [he, this]

theorem find_past_front (pre s word : Str) :
    find (pre ++ s) word pre.length = findFrom s word pre.length := by
  unfold find
  rw [if_pos (by simp), List.drop_left]

/-- Run on lines free of `\r\n` joined with `\r\n`, the loop of `Split` appends exactly
those lines. -/
theorem SplitLoop_joinWith :
    ∀ (lines : List Str) (pre : Str) (res : List Str) (fuel : Nat),
      lines ≠ [] → (∀ l ∈ lines, ¬ crlf <:+: l) → lines.length ≤ fuel →
      SplitLoop (pre ++ joinWith crlf lines) crlf fuel pre.length res = .ok (res ++ lines) := by
  intro lines
  induction lines with
  | nil => intro pre res fuel h; exact absurd rfl h
  | cons x t ih =>
    intro pre res fuel _ hfree hfuel
    cases fuel with
    | zero => simp at hfuel
    | succ n =>
      have hx := hfree x (List.mem_cons_self _ _)
      unfold SplitLoop
      cases t with
      | nil =>
        simp only [joinWith]
        rw [find_past_front, findFrom_none_of_absent crlf x _ hx]
        simp [substr_from]
      | cons y r =>
        simp only [joinWith]
        rw [find_past_front, findFrom_crlf_after_line x _ _ hx]
        simp only [substr, List.length_append, Nat.le_add_right, if_true,
          List.drop_left, Nat.add_sub_cancel_left]
        have htake : (x ++ crlf ++ joinWith crlf (y :: r)).take x.length = x := by
          rw [List.append_assoc, List.take_left]
        rw [htake]
        have h := ih (pre ++ x ++ crlf) (res ++ [x]) n (by simp)
          (fun l hl => hfree l (List.mem_cons_of_mem _ hl))
          (by simp at hfuel ⊢; omega)
        simp only [List.append_assoc, List.length_append, List.singleton_append] at h
        simp only [List.append_assoc, Nat.add_assoc]
        exact h

/-- On lines free of `\r\n` joined with `\r\n`, `Split` returns exactly those lines. -/
theorem Split_joinWith (fuel : Nat) (lines : List Str) (hne : lines ≠ [])
    (hfree : ∀ l ∈ lines, ¬ crlf <:+: l) (hf : lines.length ≤ fuel) :
    Split fuel (joinWith crlf lines) crlf = .ok lines := by
  have := SplitLoop_joinWith lines [] [] fuel hne hfree hf
  simpa [Split] using this

theorem joinWith_append (d : Str) :
    ∀ (l1 l2 : List Str), l1 ≠ [] → l2 ≠ [] →
      joinWith d (l1 ++ l2) = joinWith d l1 ++ d ++ joinWith d l2 := by
  intro l1
  induction l1 with
  | nil => intro l2 h; exact absurd rfl h
  | cons x t ih =>
    intro l2 _ h2
    cases t with
    | nil =>
      simp only [List.singleton_append, joinWith]
      exact joinWith_cons d x l2 h2
    | cons y r =>
      have h := ih l2 (by simp) h2
      simp only [List.cons_append] at h ⊢
      simp only [joinWith]
      rw [h]
      simp

/-- The lines of `s1 ++ "\r\n" ++ s2` are the lines of `s1` followed by the lines of `s2`. -/
theorem Split_append (fuel : Nat) (s1 s2 : Str) (l1 l2 : List Str)
    (hf : (s1 ++ crlf ++ s2).length + 1 ≤ fuel)
    (h1 : Split fuel s1 crlf = .ok l1) (h2 : Split fuel s2 crlf = .ok l2) :
    Split fuel (s1 ++ crlf ++ s2) crlf = .ok (l1 ++ l2) := by
  have hd : 0 < crlf.length := by decide
  have hc : crlf.length = 2 := rfl
  have hlen : (s1 ++ crlf ++ s2).length = s1.length + 2 + s2.length := by
    simp only [List.length_append, hc]
  obtain ⟨t1, e1, n1, j1, f1⟩ := SplitLoop_join s1 crlf hd fuel 0 [] l1 (Nat.zero_le _) h1
  obtain ⟨t2, e2, n2, j2, f2⟩ := SplitLoop_join s2 crlf hd fuel 0 [] l2 (Nat.zero_le _) h2
  simp only [List.nil_append] at e1 e2
  subst e1 e2
  simp only [List.drop_zero] at j1 j2
  obtain ⟨m1, g1, _, b1⟩ := Split_total fuel s1 crlf hd (by omega)
  obtain ⟨m2, g2, _, b2⟩ := Split_total fuel s2 crlf hd (by omega)
  rw [h1] at g1
  rw [h2] at g2
  injection g1 with g1
  injection g2 with g2
  subst g1 g2
  have hj : s1 ++ crlf ++ s2 = joinWith crlf (l1 ++ l2) := by
    rw [joinWith_append crlf l1 l2 n1 n2, j1, j2]
  rw [hj]
  apply Split_joinWith
  · simp [n1]
  · intro l hl
    rcases List.mem_append.mp hl with hl | hl
    · exact f1 l hl
    · exact f2 l hl
  · simp only [List.length_append]
    omega

/-! ## Parsing a vector of lines -/

theorem ParseSDP_eq_ParseLines (fuel : Nat) (sdp : Str) (lines : List Str)
    (hs : Split fuel sdp crlf = .ok lines) : ParseSDP fuel sdp = ParseLines fuel lines := by
  unfold ParseSDP ParseLines
  rw [hs]

/-- With fuel above the number of lines, the lines are parsed into the sections of their
windows, in order. -/
theorem ParseLines_eq (fuel : Nat) (lines : List Str) (hf : lines.length + 1 ≤ fuel) :
    ParseLines fuel lines = .ok ((mediaWindows lines).filterMap sectionOfWindow) := by
  unfold ParseLines
  have hfind := find_if_spec is_media_section_header lines [] fuel (by omega)
  simp only [List.nil_append, List.length_nil, Nat.zero_add] at hfind
  rw [hfind]
  simp only []
  have hsplit : lines.takeWhile (fun x => !is_media_section_header x) ++
      lines.dropWhile (fun x => !is_media_section_header x) = lines :=
    List.takeWhile_append_dropWhile _ _
  have hloop := ParseSDPLoop_spec fuel fuel
    (lines.takeWhile (fun x => !is_media_section_header x))
    (lines.dropWhile (fun x => !is_media_section_header x)) []
    (fun x r hx => dropWhile_head_header x r lines hx)
    (by
      have := congrArg List.length hsplit
      simp only [List.length_append] at this
      omega)
    (by rw [hsplit]; omega)
  rw [hsplit, mediaWindows_dropWhile] at hloop
  rw [hloop]
  simp

theorem mediaWindows_cons_pos (h : Str) (t : List Str)
    (hh : is_media_section_header h = true) :
    mediaWindows (h :: t) =
      (h :: t.takeWhile (fun x => !is_media_section_header x)) :: mediaWindows t := by
  simp [mediaWindows, hh]

theorem mediaWindows_cons_neg (h : Str) (t : List Str)
    (hh : ¬ is_media_section_header h = true) :
    mediaWindows (h :: t) = mediaWindows t := by
  simp [mediaWindows, hh]

theorem mediaWindows_append_of_no_header :
    ∀ (l1 l2 : List Str), (∀ l ∈ l1, is_media_section_header l = false) →
      mediaWindows (l1 ++ l2) = mediaWindows l2 := by
  intro l1
  induction l1 with
  | nil => intro l2 _; rfl
  | cons a t ih =>
    intro l2 h
    have ha := h a (List.mem_cons_self _ _)
    simp only [List.cons_append, mediaWindows, ha, Bool.false_eq_true, if_false]
    exact ih l2 (fun l hl => h l (List.mem_cons_of_mem _ hl))

theorem takeWhile_append_stop (p : Str → Bool) (h : Str) (t : List Str) (hp : p h = false) :
    ∀ (l : List Str), (l ++ h :: t).takeWhile p = l.takeWhile p := by
  intro l
  induction l with
  | nil => simp [List.takeWhile, hp]
  | cons a r ih =>
    by_cases ha : p a = true
    · simp [List.takeWhile, ha, ih]
    · simp [List.takeWhile, ha]

/-- A header line closes the window before it: the windows of `l1 ++ h :: t` are the
windows of `l1` followed by the windows of `h :: t`. -/
theorem mediaWindows_append_header (h : Str) (t : List Str)
    (hh : is_media_section_header h = true) :
    ∀ (l1 : List Str), mediaWindows (l1 ++ h :: t) = mediaWindows l1 ++ mediaWindows (h :: t) := by
  intro l1
  induction l1 with
  | nil => rfl
  | cons a r ih =>
    by_cases ha : is_media_section_header a = true
    · rw [List.cons_append, mediaWindows_cons_pos a _ ha, mediaWindows_cons_pos a r ha, ih,
        takeWhile_append_stop _ h t (by simp [hh])]
      rfl
    · rw [List.cons_append, mediaWindows_cons_neg a _ ha, mediaWindows_cons_neg a r ha, ih]

theorem scanStep_inert (st : Str × Option MediaDirection) (x : Str)
    (h2 : StartsWith x mid_prefix = false) (h3 : x ∉ direction_literals) :
    scanStep st x = st := by
  obtain ⟨m, d⟩ := st
  unfold scanStep
  cases d with
  | none => simp [h2, GetDirection_eq_none x h3]
  | some v => simp [h2]

theorem sectionOfWindow_insert_inert (a x : Str) (u v : List Str)
    (h2 : StartsWith x mid_prefix = false) (h3 : x ∉ direction_literals) :
    sectionOfWindow (a :: (u ++ x :: v)) = sectionOfWindow (a :: (u ++ v)) := by
  rw [sectionOfWindow_cons, sectionOfWindow_cons]
  congr 1
  rw [← List.cons_append, ← List.cons_append, List.foldl_append, List.foldl_append,
    List.foldl_cons, scanStep_inert _ x h2 h3]

theorem takeWhile_insert (p : Str → Bool) (x : Str) (hx : p x = true) (l2 : List Str) :
    ∀ (l1 : List Str),
      (l1 ++ x :: l2).takeWhile p = (l1 ++ l2).takeWhile p ∨
      ∃ u v, (l1 ++ x :: l2).takeWhile p = u ++ x :: v ∧ (l1 ++ l2).takeWhile p = u ++ v := by
  intro l1
  induction l1 with
  | nil =>
    right
    exact ⟨[], l2.takeWhile p, by simp [List.takeWhile, hx], by simp⟩
  | cons a r ih =>
    by_cases ha : p a = true
    · rcases ih with h | ⟨u, v, h1, h2⟩
      · left
        simp [List.takeWhile, ha, h]
      · right
        exact ⟨a :: u, v, by simp [List.takeWhile, ha, h1], by simp [List.takeWhile, ha, h2]⟩
    · left
      simp [List.takeWhile, ha]

/-- A line that is neither a header, nor an `a=mid:` line, nor a direction literal does not
change the sections of the windows. -/
theorem filterMap_mediaWindows_insert_inert (x : Str) (l2 : List Str)
    (h1 : is_media_section_header x = false)
    (h2 : StartsWith x mid_prefix = false) (h3 : x ∉ direction_literals) :
    ∀ (l1 : List Str),
      (mediaWindows (l1 ++ x :: l2)).filterMap sectionOfWindow
        = (mediaWindows (l1 ++ l2)).filterMap sectionOfWindow := by
  intro l1
  induction l1 with
  | nil => simp [mediaWindows, h1]
  | cons a r ih =>
    by_cases ha : is_media_section_header a = true
    · rw [List.cons_append, List.cons_append, mediaWindows_cons_pos a _ ha,
        mediaWindows_cons_pos a (r ++ l2) ha, List.filterMap_cons, List.filterMap_cons, ih]
      have hw : sectionOfWindow
            (a :: (r ++ x :: l2).takeWhile (fun y => !is_media_section_header y))
          = sectionOfWindow (a :: (r ++ l2).takeWhile (fun y => !is_media_section_header y)) := by
        rcases takeWhile_insert (fun y => !is_media_section_header y) x (by simp [h1]) l2 r with
          h | ⟨u, v, e1, e2⟩
        · rw [h]
        · rw [e1, e2]
          exact sectionOfWindow_insert_inert a x u v h2 h3
      rw [hw]
    · rw [List.cons_append, List.cons_append, mediaWindows_cons_neg a _ ha,
        mediaWindows_cons_neg a (r ++ l2) ha, ih]

/-! ## No access fault, whatever the fuel -/

theorem SplitLoop_in_range (str delimiter : Str) :
    ∀ (fuel pos : Nat) (res : List Str), pos ≤ str.length →
      SplitLoop str delimiter fuel pos res ≠ .error .out_of_range := by
  intro fuel
  induction fuel with
  | zero => intro pos res _; simp [SplitLoop]
  | succ n ih =>
    intro pos res hpos
    unfold SplitLoop
    cases hf : find str delimiter pos with
    | none => simp [substr_from, if_pos hpos]
    | some e =>
      have hb := find_bounds _ _ _ _ hf
      simp only [substr, if_pos hpos]
      exact ih _ _ (by omega)

theorem find_if_cases (p : Str → Bool) :
    ∀ (suf pre : List Str) (fuel : Nat),
      find_if (pre ++ suf) p fuel pre.length (pre ++ suf).length
          = .ok (pre.length + (suf.takeWhile (fun x => !p x)).length) ∨
        find_if (pre ++ suf) p fuel pre.length (pre ++ suf).length = .error .out_of_fuel := by
  intro suf pre fuel
  by_cases hf : suf.length < fuel
  · exact Or.inl (find_if_spec p suf pre fuel hf)
  · induction suf generalizing pre fuel with
    | nil =>
      have h0 : fuel = 0 := by simpa using hf
      subst h0
      exact Or.inr rfl
    | cons l t ih =>
      cases fuel with
      | zero => exact Or.inr rfl
      | succ n =>
        unfold find_if
        have hne : ¬ pre.length = (pre ++ l :: t).length := by simp
        rw [if_neg hne, deref_append]
        by_cases hp : p l = true
        · simp [hp]
        · have h := ih (pre ++ [l]) n (by simpa using hf)
          simp only [List.append_assoc, List.singleton_append, List.length_append,
            List.length_singleton] at h
          simp only [hp, Bool.false_eq_true, if_false]
          rw [List.length_append]
          rcases h with h | h
          · left
            rw [h]
            simp [hp]
            omega
          · right
            exact h

theorem ParseMediaSectionLoop_in_range :
    ∀ (w pre post : List Str) (fuel : Nat) (mid : Str) (dir : Option MediaDirection),
      ParseMediaSectionLoop (pre ++ w ++ post) fuel pre.length (pre.length + w.length) mid dir
        ≠ .error .out_of_range := by
  intro w pre post fuel mid dir
  by_cases hf : w.length < fuel
  · rw [ParseMediaSectionLoop_spec w pre post fuel mid dir hf]
    simp
  · induction w generalizing pre fuel mid dir with
    | nil =>
      have h0 : fuel = 0 := by simpa using hf
      subst h0
      simp [ParseMediaSectionLoop]
    | cons l t ih =>
      cases fuel with
      | zero => simp [ParseMediaSectionLoop]
      | succ n =>
        unfold ParseMediaSectionLoop
        have hne : ¬ pre.length = pre.length + (l :: t).length := by simp
        have hd : deref (pre ++ l :: t ++ post) pre.length = .ok l := by
          rw [List.append_assoc, List.cons_append]; exact deref_append _ _ _
        have hrec := fun m d => ih (pre ++ [l]) n m d (by simpa using hf)
        have hlen : (pre ++ [l]).length + t.length = pre.length + (l :: t).length := by
          simp; omega
        have hl : pre ++ [l] ++ t ++ post = pre ++ l :: t ++ post := by simp
        have hlen1 : (pre ++ [l]).length = pre.length + 1 := by simp
        rw [hlen, hl, hlen1] at hrec
        rw [if_neg hne, hd]
        by_cases hm : StartsWith l mid_prefix = true
        · have hle := StartsWith_length _ _ hm
          simp only [hm, if_true, substr_from, if_pos hle]
          exact hrec _ _
        · by_cases hdir : dir.isNone = true
          · simp only [hm, hdir, if_true, Bool.false_eq_true, if_false]
            exact hrec _ _
          · simp only [hm, hdir, Bool.false_eq_true, if_false]
            exact hrec _ _

theorem ParseMediaSection_in_range (h : Str) (t pre post : List Str) (fuel : Nat) :
    ParseMediaSection (pre ++ h :: t ++ post) fuel pre.length (pre.length + (h :: t).length)
      ≠ .error .out_of_range := by
  unfold ParseMediaSection
  have hd : deref (pre ++ h :: t ++ post) pre.length = .ok h := by
    rw [List.append_assoc, List.cons_append]; exact deref_append _ _ _
  rw [hd]
  have hloop := ParseMediaSectionLoop_in_range (h :: t) pre post fuel [] none
  simp only []
  cases hr : ParseMediaSectionLoop (pre ++ h :: t ++ post) fuel pre.length
      (pre.length + (h :: t).length) [] none with
  | error e =>
    rw [hr] at hloop
    simpa using hloop
  | ok st =>
    obtain ⟨mid, dir⟩ := st
    cases dir with
    | none => simp
    | some d =>
      by_cases hm : mid.length > 0
      · simp [hm]
      · simp [hm]

theorem ParseSDPLoop_in_range (inner : Nat) :
    ∀ (fuel : Nat) (pre suf : List Str) (acc : List MediaSection),
      ParseSDPLoop (pre ++ suf) inner fuel pre.length acc ≠ .error .out_of_range := by
  intro fuel
  induction fuel with
  | zero => intro pre suf acc; simp [ParseSDPLoop]
  | succ n ih =>
    intro pre suf acc
    cases suf with
    | nil => simp [ParseSDPLoop]
    | cons h t =>
      unfold ParseSDPLoop
      have hne : ¬ pre.length = (pre ++ h :: t).length := by simp
      have hin : ¬ (pre ++ h :: t).length < pre.length + 1 := by simp
      rw [if_neg hne, if_neg hin]
      have hfind := find_if_cases is_media_section_header t (pre ++ [h]) inner
      simp only [List.append_assoc, List.singleton_append, List.length_append,
        List.length_singleton] at hfind
      rw [List.length_append]
      rcases hfind with hfind | hfind
      · rw [hfind]
        simp only []
        have hsplit : t.takeWhile (fun x => !is_media_section_header x) ++
            t.dropWhile (fun x => !is_media_section_header x) = t :=
          List.takeWhile_append_dropWhile _ _
        generalize t.takeWhile (fun x => !is_media_section_header x) = tw at *
        generalize t.dropWhile (fun x => !is_media_section_header x) = dw at *
        have hlines : pre ++ h :: t = pre ++ h :: tw ++ dw := by
          rw [← hsplit]; simp
        have hlen : pre.length + 1 + tw.length = pre.length + (h :: tw).length := by
          simp; omega
        have hpms := ParseMediaSection_in_range h tw pre dw inner
        rw [← hlines, ← hlen] at hpms
        have hrec := fun a => ih (pre ++ h :: tw) dw a
        have hlen2 : (pre ++ h :: tw).length = pre.length + 1 + tw.length := by
          simp; omega
        simp only [hlen2, ← hlines] at hrec
        cases hsec : ParseMediaSection (pre ++ h :: t) inner pre.length
            (pre.length + 1 + tw.length) with
        | error e =>
          rw [hsec] at hpms
          simpa using hpms
        | ok sec =>
          cases sec with
          | none => exact hrec _
          | some m => exact hrec _
      · rw [hfind]
        simp

/-- Whatever the fuel, `ParseSDP` never ends on an access outside the vector of lines or
outside a string. -/
theorem ParseSDP_in_range (fuel : Nat) (sdp : Str) :
    ParseSDP fuel sdp ≠ .error .out_of_range := by
  unfold ParseSDP
  cases hs : Split fuel sdp crlf with
  | error e =>
    have := SplitLoop_in_range sdp crlf fuel 0 [] (Nat.zero_le _)
    unfold Split at hs
    rw [hs] at this
    simpa using this
  | ok lines =>
    simp only []
    have hfind := find_if_cases is_media_section_header lines [] fuel
    simp only [List.nil_append, List.length_nil, Nat.zero_add] at hfind
    rcases hfind with hfind | hfind
    · rw [hfind]
      simp only []
      have hsplit : lines.takeWhile (fun x => !is_media_section_header x) ++
          lines.dropWhile (fun x => !is_media_section_header x) = lines :=
        List.takeWhile_append_dropWhile _ _
      have := ParseSDPLoop_in_range fuel fuel
        (lines.takeWhile (fun x => !is_media_section_header x))
        (lines.dropWhile (fun x => !is_media_section_header x)) []
      rw [hsplit] at this
      exact this
    · rw [hfind]
      simp

/-! ## The claims -/

/-- C1 (drop rule): a media-section window of the split lines that contains no line
beginning with `a=mid:`, or no line equal to one of the four direction literals, yields no
section: the result of `ParseSDP` is made of the sections of the other windows only, and
so has fewer entries than there are windows. -/
theorem drop_rule (fuel : Nat) (sdp : Str) (lines w : List Str)
    (hf : sdp.length + 2 ≤ fuel) (hs : Split fuel sdp crlf = .ok lines)
    (hw : w ∈ mediaWindows lines)
    (hmiss : (∀ l ∈ w, StartsWith l mid_prefix = false) ∨
      (∀ l ∈ w, l ∉ direction_literals)) :
    sectionOfWindow w = none ∧
    ∃ r, ParseSDP fuel sdp = .ok r ∧
      r = ((mediaWindows lines).filter (fun v => decide (v ≠ w))).filterMap sectionOfWindow ∧
      r.length < (mediaWindows lines).length := by
  have hnone : sectionOfWindow w = none := by
    rcases hmiss with h | h
    · exact sectionOfWindow_none_of_mid w (scan_fst_of_no_mid w _ h)
    · exact sectionOfWindow_none_of_dir w (scan_snd_of_no_dir w _ rfl h)
  refine ⟨hnone, _, ParseSDP_eq fuel sdp lines hf hs,
    (filterMap_filter_ne sectionOfWindow w hnone _).symm, ?_⟩
  rw [← filterMap_filter_ne sectionOfWindow w hnone]
  refine lt_of_le_of_lt (List.length_filterMap_le _ _) ?_
  exact List.length_filter_lt_length_iff_exists.mpr ⟨w, hw, by simp⟩

/-- C1, on the two-section example: the video window has no `a=mid:` line and only the
audio section is returned. -/
theorem drop_rule_witness :
    sectionOfWindow ["m=video 9 ...".toList, "a=inactive".toList, []] = none ∧
    ParseSDP 70 sdp_audio_and_incomplete_video = .ok [⟨.kAudio, "0".toList, .kSendRecv⟩] := by
  obtain ⟨h1, r, h2, h3, _⟩ := drop_rule 70 sdp_audio_and_incomplete_video
    ["m=audio 9 ...".toList, "a=mid:0".toList, "a=sendrecv".toList,
      "m=video 9 ...".toList, "a=inactive".toList, []]
    ["m=video 9 ...".toList, "a=inactive".toList, []]
    (by decide) (by decide) (by decide) (Or.inl (by decide))
  refine ⟨h1, ?_⟩
  rw [h2, h3]
  decide

/-- C2 as stated fails: the window of `sdp_mid_then_empty_mid` contains the line `a=mid:0`,
whose remainder is not empty, and the direction line `a=sendrecv`, yet nothing is
returned, because the later line `a=mid:` overwrites the identifier with the empty string. -/
theorem emit_rule_counterexample :
    Split 70 sdp_mid_then_empty_mid crlf =
      .ok ["m=audio 9 ...".toList, "a=mid:0".toList, "a=mid:".toList, "a=sendrecv".toList, []] ∧
    mediaWindows
        ["m=audio 9 ...".toList, "a=mid:0".toList, "a=mid:".toList, "a=sendrecv".toList, []] =
      [["m=audio 9 ...".toList, "a=mid:0".toList, "a=mid:".toList, "a=sendrecv".toList, []]] ∧
    StartsWith "a=mid:0".toList mid_prefix = true ∧
    "a=mid:0".toList.drop mid_prefix.length ≠ [] ∧
    "a=sendrecv".toList ∈ direction_literals ∧
    ParseSDP 70 sdp_mid_then_empty_mid = .ok [] := by
  decide

/-- C2 (emit rule, amended): a media-section window of the split lines whose last line
beginning with `a=mid:` has a non-empty remainder, and which contains a line equal to one
of the four direction literals, yields exactly one section, and the result of `ParseSDP`
is the concatenation, in window order, of what the windows yield. -/
theorem emit_rule (fuel : Nat) (sdp : Str) (lines w : List Str)
    (hf : sdp.length + 2 ≤ fuel) (hs : Split fuel sdp crlf = .ok lines)
    (hw : w ∈ mediaWindows lines)
    (hmid : ∃ pre l post, w = pre ++ l :: post ∧ StartsWith l mid_prefix = true ∧
      l.drop mid_prefix.length ≠ [] ∧ ∀ x ∈ post, StartsWith x mid_prefix = false)
    (hdir : ∃ l ∈ w, l ∈ direction_literals) :
    ((sectionOfWindow w).toList).length = 1 ∧
    ParseSDP fuel sdp =
      .ok ((mediaWindows lines).flatMap (fun v => (sectionOfWindow v).toList)) := by
  obtain ⟨hd, tl, hshape, _, _⟩ := mediaWindows_shape lines w hw
  obtain ⟨pre, l, post, hdec, hl, hne, hpost⟩ := hmid
  have h1 : 0 < ((w.foldl scanStep ([], none)).1).length := by
    rw [hdec, scan_fst_last_mid pre post l _ hl hpost]
    exact List.length_pos.mpr hne
  have h2 := scan_snd_of_dir w ([], none) hdir
  rw [hshape] at h1 h2
  obtain ⟨m, hm⟩ := sectionOfWindow_isSome hd tl h1 h2
  rw [← hshape] at hm
  refine ⟨by rw [hm]; rfl, ?_⟩
  rw [← filterMap_eq_flatMap_toList]
  exact ParseSDP_eq fuel sdp lines hf hs

/-- C2, on the single-section example: the result is exactly the audio section `0`. -/
theorem emit_rule_witness :
    ((sectionOfWindow
        ["m=audio 9 UDP/TLS/RTP/SAVPF 111".toList, "a=mid:0".toList, "a=sendrecv".toList,
          []]).toList).length = 1 ∧
    ParseSDP 70 sdp_single_audio = .ok [⟨.kAudio, "0".toList, .kSendRecv⟩] :=
  emit_rule 70 sdp_single_audio
    ["m=audio 9 UDP/TLS/RTP/SAVPF 111".toList, "a=mid:0".toList, "a=sendrecv".toList, []]
    ["m=audio 9 UDP/TLS/RTP/SAVPF 111".toList, "a=mid:0".toList, "a=sendrecv".toList, []]
    (by decide) (by decide) (by decide)
    ⟨["m=audio 9 UDP/TLS/RTP/SAVPF 111".toList], "a=mid:0".toList, ["a=sendrecv".toList, []],
      by decide, by decide, by decide, by decide⟩
    ⟨"a=sendrecv".toList, by decide, by decide⟩

/-- C3 as stated fails: on the duplicate-`mid` example the identifier returned is `2`, the
remainder of the last `a=mid:` line, and not `1`. -/
theorem identifier_first_mid_counterexample :
    ParseSDP 70 sdp_duplicate_mid = .ok [⟨.kVideo, "2".toList, .kRecvOnly⟩] ∧
    ParseSDP 70 sdp_duplicate_mid ≠ .ok [⟨.kVideo, "1".toList, .kRecvOnly⟩] := by
  decide

/-- C3 (identifier, amended): the identifier of the section yielded by a media-section
window is the remainder, after the prefix, of the last line of the window beginning with
`a=mid:`; earlier `a=mid:` lines of the window are overwritten. -/
theorem identifier_last_mid (fuel : Nat) (sdp : Str) (lines w : List Str) (m : MediaSection)
    (hf : sdp.length + 2 ≤ fuel) (hs : Split fuel sdp crlf = .ok lines)
    (hw : w ∈ mediaWindows lines) (hm : sectionOfWindow w = some m) :
    (∃ r, ParseSDP fuel sdp = .ok r ∧ m ∈ r) ∧
    ∃ pre l post, w = pre ++ l :: post ∧ StartsWith l mid_prefix = true ∧
      (∀ x ∈ post, StartsWith x mid_prefix = false) ∧
      m.identifier = l.drop mid_prefix.length := by
  refine ⟨mem_ParseSDP_of_window fuel sdp lines w m hf hs hw hm, ?_⟩
  obtain ⟨_, _, _, h1, _, h3, _⟩ := sectionOfWindow_some w m hm
  rcases last_occurrence_cases (fun l => StartsWith l mid_prefix) w with h | ⟨pre, l, post, hdec, hl, hpost⟩
  · rw [scan_fst_of_no_mid w _ h] at h1
    rw [← h1] at h3
    cases h3
  · refine ⟨pre, l, post, hdec, hl, hpost, ?_⟩
    rw [← h1, hdec]
    exact scan_fst_last_mid pre post l _ hl hpost

/-- C3, on the duplicate-`mid` example: the section is returned with the identifier `2`. -/
theorem identifier_last_mid_witness :
    (∃ r, ParseSDP 70 sdp_duplicate_mid = .ok r ∧
      (⟨.kVideo, "2".toList, .kRecvOnly⟩ : MediaSection) ∈ r) ∧
    ∃ pre l post,
      ["m=video 9 ...".toList, "a=mid:1".toList, "a=mid:2".toList, "a=recvonly".toList, []]
        = pre ++ l :: post ∧
      StartsWith l mid_prefix = true ∧ (∀ x ∈ post, StartsWith x mid_prefix = false) ∧
      "2".toList = l.drop mid_prefix.length :=
  identifier_last_mid 70 sdp_duplicate_mid
    ["m=video 9 ...".toList, "a=mid:1".toList, "a=mid:2".toList, "a=recvonly".toList, []]
    ["m=video 9 ...".toList, "a=mid:1".toList, "a=mid:2".toList, "a=recvonly".toList, []]
    ⟨.kVideo, "2".toList, .kRecvOnly⟩
    (by decide) (by decide) (by decide) (by decide)

/-- C4 (direction single-assignment): the direction of the section yielded by a
media-section window is the value `GetDirection` gives to the first line of the window
that is equal to one of the four direction literals; `GetDirection` maps `a=recvonly`,
`a=sendonly`, `a=inactive`, `a=sendrecv` to `kRecvOnly`, `kSendOnly`, `kInactive`,
`kSendRecv`, and gives no direction to any line that is not equal to a literal. -/
theorem direction_first_literal (fuel : Nat) (sdp : Str) (lines w : List Str)
    (m : MediaSection)
    (hf : sdp.length + 2 ≤ fuel) (hs : Split fuel sdp crlf = .ok lines)
    (hw : w ∈ mediaWindows lines) (hm : sectionOfWindow w = some m) :
    (∃ r, ParseSDP fuel sdp = .ok r ∧ m ∈ r) ∧
    (∃ pre l post, w = pre ++ l :: post ∧ l ∈ direction_literals ∧
      (∀ x ∈ pre, x ∉ direction_literals) ∧ GetDirection l = some m.direction) ∧
    GetDirection rec_only = some .kRecvOnly ∧ GetDirection send_only = some .kSendOnly ∧
    GetDirection inactive = some .kInactive ∧ GetDirection sendrecv = some .kSendRecv ∧
    ∀ x, x ∉ direction_literals → GetDirection x = none := by
  refine ⟨mem_ParseSDP_of_window fuel sdp lines w m hf hs hw hm, ?_, by decide, by decide,
    by decide, by decide, GetDirection_eq_none⟩
  obtain ⟨_, _, _, _, h2, _, _⟩ := sectionOfWindow_some w m hm
  rcases first_occurrence_cases (fun l => decide (l ∈ direction_literals)) w with
    h | ⟨pre, l, post, hdec, hl, hpre⟩
  · rw [scan_snd_of_no_dir w _ rfl (fun l hl => by simpa using h l hl)] at h2
    cases h2
  · have hl1 : l ∈ direction_literals := by simpa using hl
    have hpre1 : ∀ x ∈ pre, x ∉ direction_literals := fun x hx => by simpa using hpre x hx
    refine ⟨pre, l, post, hdec, hl1, hpre1, ?_⟩
    rw [← h2, hdec]
    exact (scan_snd_first_dir pre post l _ rfl hl1 hpre1).symm

/-- C4, on a window whose second line only begins with a literal, whose third line is
`a=inactive` and whose last direction line is `a=sendrecv`: the direction is `kInactive`. -/
theorem direction_first_literal_witness :
    ParseSDP 80 sdp_two_directions = .ok [⟨.kVideo, "7".toList, .kInactive⟩] ∧
    ∃ pre l post,
      ["m=video 9 ...".toList, "a=sendonly ".toList, "a=inactive".toList, "a=mid:7".toList,
        "a=sendrecv".toList, []] = pre ++ l :: post ∧
      l ∈ direction_literals ∧ (∀ x ∈ pre, x ∉ direction_literals) ∧
      GetDirection l = some MediaDirection.kInactive :=
  ⟨by decide,
    (direction_first_literal 80 sdp_two_directions
      ["m=video 9 ...".toList, "a=sendonly ".toList, "a=inactive".toList, "a=mid:7".toList,
        "a=sendrecv".toList, []]
      ["m=video 9 ...".toList, "a=sendonly ".toList, "a=inactive".toList, "a=mid:7".toList,
        "a=sendrecv".toList, []]
      ⟨.kVideo, "7".toList, .kInactive⟩
      (by decide) (by decide) (by decide) (by decide)).2.1⟩

/-- C5 (order preservation): the result of `ParseSDP` is, in order, what
`ParseMediaSection` yields on the media-section windows of the split lines taken left to
right, where the windows partition the lines from the first header on, each beginning at
a header line and holding no other header line, and `ParseMediaSection` faults on none. -/
theorem order_preservation (fuel : Nat) (sdp : Str) (lines : List Str)
    (hf : sdp.length + 2 ≤ fuel) (hs : Split fuel sdp crlf = .ok lines) :
    ParseSDP fuel sdp = .ok ((mediaWindows lines).filterMap sectionOfWindow) ∧
    (mediaWindows lines).flatten = lines.dropWhile (fun x => !is_media_section_header x) ∧
    ∀ w ∈ mediaWindows lines,
      (∃ h t, w = h :: t ∧ is_media_section_header h = true ∧
        ∀ x ∈ t, is_media_section_header x = false) ∧
      ParseMediaSection w (w.length + 1) 0 w.length = .ok (sectionOfWindow w) := by
  refine ⟨ParseSDP_eq fuel sdp lines hf hs, mediaWindows_flatten lines, ?_⟩
  intro w hw
  obtain ⟨h, t, hshape, hh, ht⟩ := mediaWindows_shape lines w hw
  refine ⟨⟨h, t, hshape, hh, ht⟩, ?_⟩
  rw [hshape]
  exact ParseMediaSection_window h t

/-- C5, on three sections after a preamble line: the audio section comes before the
application section, and the video section last. -/
theorem order_preservation_witness :
    ParseSDP 120 sdp_three_kinds =
      .ok [⟨.kAudio, "a".toList, .kSendRecv⟩, ⟨.kVideo, "d".toList, .kInactive⟩,
        ⟨.kVideo, "v".toList, .kRecvOnly⟩] :=
  (order_preservation 120 sdp_three_kinds
    ["v=0".toList, "m=audio 9".toList, "a=mid:a".toList, "a=sendrecv".toList,
      "m=application 9".toList, "a=mid:d".toList, "a=inactive".toList,
      "m=video 9".toList, "a=recvonly".toList, "a=mid:v".toList]
    (by decide) (by decide)).1.trans (by decide)

/-- C6 (size bound): `ParseSDP` returns at most as many sections as there are lines
beginning with `m=` among the split lines. -/
theorem size_bound (fuel : Nat) (sdp : Str) (lines : List Str)
    (hf : sdp.length + 2 ≤ fuel) (hs : Split fuel sdp crlf = .ok lines) :
    ∃ r, ParseSDP fuel sdp = .ok r ∧ r.length ≤ lines.countP is_media_section_header := by
  refine ⟨_, ParseSDP_eq fuel sdp lines hf hs, ?_⟩
  rw [← mediaWindows_length]
  exact List.length_filterMap_le _ _

/-- C6, on the two-section example: one section for two header lines. -/
theorem size_bound_witness :
    ∃ r, ParseSDP 70 sdp_audio_and_incomplete_video = .ok r ∧
      r.length ≤
        List.countP is_media_section_header
          ["m=audio 9 ...".toList, "a=mid:0".toList, "a=sendrecv".toList,
            "m=video 9 ...".toList, "a=inactive".toList, []] :=
  size_bound 70 sdp_audio_and_incomplete_video
    ["m=audio 9 ...".toList, "a=mid:0".toList, "a=sendrecv".toList,
      "m=video 9 ...".toList, "a=inactive".toList, []]
    (by decide) (by decide)

/-- C7 (kind classification): the kind of the section yielded by a media-section window
is `kAudio` exactly when the header line of the window begins with `m=audio`, and `kVideo`
for every other header line. -/
theorem kind_classification (fuel : Nat) (sdp : Str) (lines w : List Str) (m : MediaSection)
    (hf : sdp.length + 2 ≤ fuel) (hs : Split fuel sdp crlf = .ok lines)
    (hw : w ∈ mediaWindows lines) (hm : sectionOfWindow w = some m) :
    (∃ r, ParseSDP fuel sdp = .ok r ∧ m ∈ r) ∧
    ∃ h t, w = h :: t ∧ is_media_section_header h = true ∧
      (m.kind = .kAudio ↔ StartsWith h "m=audio".toList = true) ∧
      (m.kind = .kVideo ↔ StartsWith h "m=audio".toList = false) := by
  refine ⟨mem_ParseSDP_of_window fuel sdp lines w m hf hs hw hm, ?_⟩
  obtain ⟨h, t, hshape, hh, _⟩ := mediaWindows_shape lines w hw
  obtain ⟨h1, t1, hshape1, _, _, _, hk⟩ := sectionOfWindow_some w m hm
  rw [hshape] at hshape1
  injection hshape1 with e1 e2
  subst e1
  refine ⟨h, t, hshape, hh, ?_⟩
  rw [hk]
  by_cases ha : StartsWith h "m=audio".toList = true
  · simp [ha]
  · simp [ha]

/-- C7, on the application window of the three-section example: its kind is `kVideo`. -/
theorem kind_classification_witness :
    (∃ r, ParseSDP 120 sdp_three_kinds = .ok r ∧
      (⟨.kVideo, "d".toList, .kInactive⟩ : MediaSection) ∈ r) ∧
    ∃ h t, ["m=application 9".toList, "a=mid:d".toList, "a=inactive".toList] = h :: t ∧
      is_media_section_header h = true ∧
      (MediaType.kVideo = .kAudio ↔ StartsWith h "m=audio".toList = true) ∧
      (MediaType.kVideo = .kVideo ↔ StartsWith h "m=audio".toList = false) :=
  kind_classification 120 sdp_three_kinds
    ["v=0".toList, "m=audio 9".toList, "a=mid:a".toList, "a=sendrecv".toList,
      "m=application 9".toList, "a=mid:d".toList, "a=inactive".toList,
      "m=video 9".toList, "a=recvonly".toList, "a=mid:v".toList]
    ["m=application 9".toList, "a=mid:d".toList, "a=inactive".toList]
    ⟨.kVideo, "d".toList, .kInactive⟩
    (by decide) (by decide) (by decide) (by decide)

/-- C8 (empty result without headers): when none of the split lines begins with `m=`,
`ParseSDP` returns the empty sequence. -/
theorem empty_without_headers (fuel : Nat) (sdp : Str) (lines : List Str)
    (hf : sdp.length + 2 ≤ fuel) (hs : Split fuel sdp crlf = .ok lines)
    (hno : ∀ l ∈ lines, is_media_section_header l = false) :
    ParseSDP fuel sdp = .ok [] := by
  rw [ParseSDP_eq fuel sdp lines hf hs, mediaWindows_of_no_header lines hno]
  rfl

/-- C8, on the empty text and on the example without a media-section header. -/
theorem empty_without_headers_witness :
    ParseSDP 2 [] = .ok [] ∧ ParseSDP 40 sdp_no_header = .ok [] :=
  ⟨empty_without_headers 2 [] [[]] (by decide) (by decide) (by decide),
    empty_without_headers 40 sdp_no_header
      ["v=0".toList, "o=- 1 1 IN IP4 0.0.0.0".toList, []]
      (by decide) (by decide) (by decide)⟩

/-- C9 (totality): with fuel above the length of the text, `Split` and `ParseSDP` return
without a fault, and with less fuel `ParseSDP` never ends on an access outside the vector
of lines. The first search stops inside the vector, at a header line or at the end;
and from every state whose `section_start` is at a header line, the search of the next
header starts inside the vector, stops strictly after `section_start`, again at a header
line or at the end, and `ParseMediaSection` on that range returns without a fault. -/
theorem totality (fuel : Nat) (sdp : Str) (hf : sdp.length + 2 ≤ fuel) :
    ∃ lines r, Split fuel sdp crlf = .ok lines ∧ ParseSDP fuel sdp = .ok r ∧
      (∀ n, ParseSDP n sdp ≠ .error .out_of_range) ∧
      (∃ s, find_if lines is_media_section_header fuel 0 lines.length = .ok s ∧
        s ≤ lines.length ∧ ∀ l, lines[s]? = some l → is_media_section_header l = true) ∧
      ∀ pre h t, lines = pre ++ h :: t → is_media_section_header h = true →
        ∃ j sec,
          find_if lines is_media_section_header fuel (pre.length + 1) lines.length = .ok j ∧
          pre.length < j ∧ j ≤ lines.length ∧
          (∀ l, lines[j]? = some l → is_media_section_header l = true) ∧
          ParseMediaSection lines fuel pre.length j = .ok sec := by
  obtain ⟨lines, h1, _, h3⟩ := Split_total fuel sdp crlf (by decide) (by omega)
  refine ⟨lines, _, h1, ParseSDP_eq fuel sdp lines hf h1,
    fun n => ParseSDP_in_range n sdp, ?_, ?_⟩
  · have hfind := find_if_spec is_media_section_header lines [] fuel (by omega)
    simp only [List.nil_append, List.length_nil, Nat.zero_add] at hfind
    have hsplit : lines.takeWhile (fun x => !is_media_section_header x) ++
        lines.dropWhile (fun x => !is_media_section_header x) = lines :=
      List.takeWhile_append_dropWhile _ _
    refine ⟨_, hfind, ?_, ?_⟩
    · have := congrArg List.length hsplit
      simp only [List.length_append] at this
      omega
    · intro l hl
      generalize hdw : lines.dropWhile (fun x => !is_media_section_header x) = dw at *
      generalize lines.takeWhile (fun x => !is_media_section_header x) = tw at *
      rw [← hsplit, List.getElem?_append_right (le_refl _)] at hl
      simp only [Nat.sub_self] at hl
      cases dw with
      | nil => simp at hl
      | cons x r =>
        simp only [List.getElem?_cons_zero, Option.some.injEq] at hl
        subst hl
        exact dropWhile_head_header x r lines hdw
  · intro pre h t hl _
    subst hl
    exact ParseSDP_iteration fuel pre t h (by omega)

/-- C9, on the two-section example. -/
theorem totality_witness :
    ∃ lines r, Split 70 sdp_audio_and_incomplete_video crlf = .ok lines ∧
      ParseSDP 70 sdp_audio_and_incomplete_video = .ok r ∧
      (∀ n, ParseSDP n sdp_audio_and_incomplete_video ≠ .error .out_of_range) ∧
      (∃ s, find_if lines is_media_section_header 70 0 lines.length = .ok s ∧
        s ≤ lines.length ∧ ∀ l, lines[s]? = some l → is_media_section_header l = true) ∧
      ∀ pre h t, lines = pre ++ h :: t → is_media_section_header h = true →
        ∃ j sec,
          find_if lines is_media_section_header 70 (pre.length + 1) lines.length = .ok j ∧
          pre.length < j ∧ j ≤ lines.length ∧
          (∀ l, lines[j]? = some l → is_media_section_header l = true) ∧
          ParseMediaSection lines 70 pre.length j = .ok sec :=
  totality 70 sdp_audio_and_incomplete_video (by decide)

/-- C10 (non-empty identifier): every section returned by `ParseSDP` has an identifier of
positive length, and a media-section window all of whose `a=mid:` lines are exactly
`a=mid:` yields no section, whatever direction lines it holds. -/
theorem nonempty_identifier (fuel : Nat) (sdp : Str) (lines : List Str)
    (hf : sdp.length + 2 ≤ fuel) (hs : Split fuel sdp crlf = .ok lines) :
    ∃ r, ParseSDP fuel sdp = .ok r ∧ (∀ m ∈ r, 0 < m.identifier.length) ∧
      ∀ w ∈ mediaWindows lines,
        (∀ l ∈ w, StartsWith l mid_prefix = true → l = mid_prefix) →
        sectionOfWindow w = none ∧
        r = ((mediaWindows lines).filter (fun v => decide (v ≠ w))).filterMap sectionOfWindow := by
  refine ⟨_, ParseSDP_eq fuel sdp lines hf hs, ?_, ?_⟩
  · intro m hm
    obtain ⟨w, _, hw⟩ := List.mem_filterMap.mp hm
    obtain ⟨_, _, _, _, _, h3, _⟩ := sectionOfWindow_some w m hw
    exact h3
  · intro w _ hall
    have hnone := sectionOfWindow_none_of_mid w (scan_fst_of_empty_mids w _ rfl hall)
    exact ⟨hnone, (filterMap_filter_ne sectionOfWindow w hnone _).symm⟩

/-- C10, on the example whose only `a=mid:` line is exactly `a=mid:`: nothing is returned
although the window holds `a=sendonly`. -/
theorem nonempty_identifier_witness :
    ParseSDP 70 sdp_empty_mid = .ok [] ∧
    sectionOfWindow ["m=audio 9 ...".toList, "a=mid:".toList, "a=sendonly".toList, []] = none := by
  obtain ⟨r, h1, _, h3⟩ := nonempty_identifier 70 sdp_empty_mid
    ["m=audio 9 ...".toList, "a=mid:".toList, "a=sendonly".toList, []]
    (by decide) (by decide)
  have h4 := h3 ["m=audio 9 ...".toList, "a=mid:".toList, "a=sendonly".toList, []]
    (by decide) (by decide)
  refine ⟨?_, h4.1⟩
  rw [h1, h4.2]
  decide

/-- C11 (preamble ignored): when none of the lines of `p` begins with `m=`, parsing
`p ++ "\r\n" ++ s` returns what parsing `s` returns, whatever `p` holds. -/
theorem preamble_ignored (fuel : Nat) (p s : Str) (lp : List Str)
    (hf : (p ++ crlf ++ s).length + 2 ≤ fuel)
    (hp : Split fuel p crlf = .ok lp)
    (hno : ∀ l ∈ lp, is_media_section_header l = false) :
    ∃ r, ParseSDP fuel s = .ok r ∧ ParseSDP fuel (p ++ crlf ++ s) = .ok r := by
  have hc : crlf.length = 2 := rfl
  have hlen : (p ++ crlf ++ s).length = p.length + 2 + s.length := by
    simp only [List.length_append, hc]
  obtain ⟨ls, hs, _, _⟩ := Split_total fuel s crlf (by decide) (by omega)
  have hps := Split_append fuel p s lp ls (by omega) hp hs
  refine ⟨_, ParseSDP_eq fuel s ls (by omega) hs, ?_⟩
  rw [ParseSDP_eq fuel _ _ hf hps, mediaWindows_append_of_no_header lp ls hno]

/-- C11, on a preamble that holds an `a=mid:` line and a direction literal: the section
takes its identifier and its direction from its own window. -/
theorem preamble_ignored_witness :
    ∃ r, ParseSDP 60 "m=audio 9\r\na=inactive\r\na=mid:0".toList = .ok r ∧
      ParseSDP 60
        ("v=0\r\na=mid:9\r\na=sendrecv".toList ++ crlf ++
          "m=audio 9\r\na=inactive\r\na=mid:0".toList) = .ok r :=
  preamble_ignored 60 "v=0\r\na=mid:9\r\na=sendrecv".toList
    "m=audio 9\r\na=inactive\r\na=mid:0".toList
    ["v=0".toList, "a=mid:9".toList, "a=sendrecv".toList]
    (by decide) (by decide) (by decide)

/-- C12 (inert lines): a line that does not begin with `m=`, does not begin with `a=mid:`
and is not a direction literal can be inserted anywhere in a line sequence without
changing what parsing the sequence returns; in particular a text followed by one more
`\r\n`, whose lines are those of the text and one more empty line, parses to the same
result as the text. -/
theorem inert_lines (fuel : Nat) (l1 l2 : List Str) (x : Str)
    (hf : (l1 ++ [x] ++ l2).length + 1 ≤ fuel)
    (h1 : is_media_section_header x = false)
    (h2 : StartsWith x mid_prefix = false) (h3 : x ∉ direction_literals) :
    (∃ r, ParseLines fuel (l1 ++ l2) = .ok r ∧ ParseLines fuel (l1 ++ [x] ++ l2) = .ok r) ∧
    ∀ (sdp : Str), (sdp ++ crlf).length + 2 ≤ fuel →
      ∃ lines r, Split fuel sdp crlf = .ok lines ∧
        Split fuel (sdp ++ crlf) crlf = .ok (lines ++ [[]]) ∧
        ParseSDP fuel sdp = .ok r ∧ ParseSDP fuel (sdp ++ crlf) = .ok r := by
  constructor
  · refine ⟨_, ParseLines_eq fuel (l1 ++ l2) ?_, ?_⟩
    · simp only [List.length_append, List.length_singleton] at hf ⊢
      omega
    · rw [ParseLines_eq fuel _ hf, List.append_assoc, List.singleton_append,
        filterMap_mediaWindows_insert_inert x l2 h1 h2 h3 l1]
  · intro sdp hsdp
    have hc : crlf.length = 2 := rfl
    have hlen : (sdp ++ crlf).length = sdp.length + 2 := by
      simp only [List.length_append, hc]
    obtain ⟨ls, hs, _, hb⟩ := Split_total fuel sdp crlf (by decide) (by omega)
    have hnil : Split fuel [] crlf = .ok [[]] := by
      have := Split_joinWith fuel [[]] (by simp) (by decide) (by simp; omega)
      simpa [joinWith] using this
    have happ := Split_append fuel sdp [] ls [[]] (by simp; omega) hs hnil
    rw [List.append_nil] at happ
    refine ⟨ls, _, hs, happ, ParseSDP_eq fuel sdp ls (by omega) hs, ?_⟩
    rw [ParseSDP_eq fuel _ _ hsdp happ]
    have := filterMap_mediaWindows_insert_inert [] [] (by decide) (by decide) (by decide) ls
    rw [this, List.append_nil]

/-- C12, on a codec line inserted inside a window, and on a text with a trailing
separator. -/
theorem inert_lines_witness :
    (∃ r,
      ParseLines 60 (["m=audio 9".toList, "a=mid:0".toList] ++ ["a=sendrecv".toList]) = .ok r ∧
      ParseLines 60
        (["m=audio 9".toList, "a=mid:0".toList] ++ ["a=rtpmap:111 opus".toList] ++
          ["a=sendrecv".toList]) = .ok r) ∧
    ∀ (sdp : Str), (sdp ++ crlf).length + 2 ≤ 60 →
      ∃ lines r, Split 60 sdp crlf = .ok lines ∧
        Split 60 (sdp ++ crlf) crlf = .ok (lines ++ [[]]) ∧
        ParseSDP 60 sdp = .ok r ∧ ParseSDP 60 (sdp ++ crlf) = .ok r :=
  inert_lines 60 ["m=audio 9".toList, "a=mid:0".toList] ["a=sendrecv".toList]
    "a=rtpmap:111 opus".toList (by decide) (by decide) (by decide) (by decide)

/-- C13 (line splitting preserves every line): on a non-empty list of lines, none of which
holds `\r\n`, joined with `\r\n`, `Split` with the delimiter `\r\n` returns exactly that
list; and on a text that holds no `\r\n` it returns the list of that one text. -/
theorem split_preserves_lines (fuel : Nat) (lines : List Str) (hne : lines ≠ [])
    (hfree : ∀ l ∈ lines, ¬ crlf <:+: l) (hf : lines.length ≤ fuel) :
    Split fuel (joinWith crlf lines) crlf = .ok lines ∧
    ∀ (text : Str), ¬ crlf <:+: text → Split fuel text crlf = .ok [text] := by
  refine ⟨Split_joinWith fuel lines hne hfree hf, ?_⟩
  intro text htext
  have hpos : 0 < lines.length := List.length_pos.mpr hne
  have := Split_joinWith fuel [text] (by simp)
    (fun l hl => by rw [List.mem_singleton.mp hl]; exact htext) (by simp; omega)
  simpa [joinWith] using this

/-- C13, on lines with an empty line in the middle and an empty last line. -/
theorem split_preserves_lines_witness :
    Split 4 "ab\r\n\r\ncd\r\n".toList crlf = .ok ["ab".toList, [], "cd".toList, []] ∧
    ∀ (text : Str), ¬ crlf <:+: text → Split 4 text crlf = .ok [text] :=
  split_preserves_lines 4 ["ab".toList, [], "cd".toList, []] (by decide) (by decide)
    (by decide)

/-- C14 (split round trip): with a non-empty delimiter `d`, the list returned by
`Split` on `s`, joined with `d` between consecutive elements, is `s`, and no element of
the list holds `d`. -/
theorem split_round_trip (fuel : Nat) (s d : Str) (hd : 0 < d.length)
    (hf : s.length + 1 ≤ fuel) :
    ∃ lines, Split fuel s d = .ok lines ∧ joinWith d lines = s ∧
      ∀ l ∈ lines, ¬ d <:+: l := by
  obtain ⟨lines, h1, _, _⟩ := Split_total fuel s d hd hf
  obtain ⟨toks, e, _, hj, hfree⟩ := SplitLoop_join s d hd fuel 0 [] lines (Nat.zero_le _) h1
  simp only [List.nil_append] at e
  subst e
  exact ⟨lines, h1, by simpa using hj, hfree⟩

/-- C14, on a text that ends with two adjacent delimiters. -/
theorem split_round_trip_witness :
    ∃ lines, Split 9 "xabyabab".toList "ab".toList = .ok lines ∧
      joinWith "ab".toList lines = "xabyabab".toList ∧
      ∀ l ∈ lines, ¬ "ab".toList <:+: l :=
  split_round_trip 9 "xabyabab".toList "ab".toList (by decide) (by decide)

theorem header_not_mid (l : Str) (h : is_media_section_header l = true) :
    StartsWith l mid_prefix = false := by
  unfold is_media_section_header StartsWith at h
  have h2 : l.take 2 = ['m', '='] := by simpa using h
  unfold StartsWith
  rw [← List.take_append_drop 2 l, h2]
  simp [ mid_prefix]

/-- The first line of a text that begins with `m=` begins with `m=`. -/
theorem first_line_header (fuel : Nat) (s : Str) (lines : List Str)
    (hs : Split fuel s crlf = .ok lines) (h : is_media_section_header s = true) :
    ∃ hd tl, lines = hd :: tl ∧ is_media_section_header hd = true := by
  obtain ⟨toks, e, hne, hj, _⟩ :=
    SplitLoop_join s crlf (by decide) fuel 0 [] lines (Nat.zero_le _) hs
  simp only [List.nil_append] at e
  subst e
  simp only [List.drop_zero] at hj
  cases lines with
  | nil => exact absurd rfl hne
  | cons x t =>
    refine ⟨x, t, rfl, ?_⟩
    cases t with
    | nil =>
      simp only [joinWith] at hj
      rw [hj]; exact h
    | cons y r =>
      simp only [joinWith] at hj
      rw [← hj] at h
      have hc : crlf = ['\r', '\n'] := rfl
      unfold is_media_section_header StartsWith at h ⊢
      have h2 : (x ++ crlf ++ joinWith crlf (y :: r)).take 2 = ['m', '='] := by simpa using h
      cases x with
      | nil => rw [hc] at h2; simp at h2
      | cons c1 x1 =>
        cases x1 with
        | nil => rw [hc] at h2; simp at h2
        | cons c2 x2 =>
          simp only [List.cons_append, List.take_succ_cons, List.take_zero] at h2
          simp [h2]

/-- C15 (windows are independent): when `s2` begins with `m=`, parsing
`s1 ++ "\r\n" ++ s2` returns the sections of `s1` followed by the sections of `s2`. -/
theorem windows_independent (fuel : Nat) (s1 s2 : Str)
    (hf : (s1 ++ crlf ++ s2).length + 2 ≤ fuel)
    (h2 : StartsWith s2 "m=".toList = true) :
    ∃ r1 r2, ParseSDP fuel s1 = .ok r1 ∧ ParseSDP fuel s2 = .ok r2 ∧
      ParseSDP fuel (s1 ++ crlf ++ s2) = .ok (r1 ++ r2) := by
  have hc : crlf.length = 2 := rfl
  have hlen : (s1 ++ crlf ++ s2).length = s1.length + 2 + s2.length := by
    simp only [List.length_append, hc]
  obtain ⟨l1, hs1, _, _⟩ := Split_total fuel s1 crlf (by decide) (by omega)
  obtain ⟨l2, hs2, _, _⟩ := Split_total fuel s2 crlf (by decide) (by omega)
  have happ := Split_append fuel s1 s2 l1 l2 (by omega) hs1 hs2
  obtain ⟨hd, tl, e, hh⟩ := first_line_header fuel s2 l2 hs2 h2
  refine ⟨_, _, ParseSDP_eq fuel s1 l1 (by omega) hs1, ParseSDP_eq fuel s2 l2 (by omega) hs2, ?_⟩
  rw [ParseSDP_eq fuel _ _ hf happ, e, mediaWindows_append_header hd tl hh l1,
    List.filterMap_append]

/-- C15, on an audio section without direction followed by a video section without
identifier: neither completes the other. -/
theorem windows_independent_witness :
    ∃ r1 r2, ParseSDP 50 "m=audio 9\r\na=mid:0".toList = .ok r1 ∧
      ParseSDP 50 "m=video 9\r\na=sendrecv".toList = .ok r2 ∧
      ParseSDP 50 ("m=audio 9\r\na=mid:0".toList ++ crlf ++ "m=video 9\r\na=sendrecv".toList)
        = .ok (r1 ++ r2) :=
  windows_independent 50 "m=audio 9\r\na=mid:0".toList "m=video 9\r\na=sendrecv".toList
    (by decide) (by decide)

/-- C16 (bare-LF input parses to nothing): on a text that holds no `\r\n`, the only line
is the whole text and `ParseSDP` returns the empty sequence. -/
theorem bare_lf_empty (fuel : Nat) (sdp : Str) (hf : sdp.length + 2 ≤ fuel)
    (hno : ¬ crlf <:+: sdp) :
    Split fuel sdp crlf = .ok [sdp] ∧ ParseSDP fuel sdp = .ok [] := by
  have hs : Split fuel sdp crlf = .ok [sdp] := by
    have := Split_joinWith fuel [sdp] (by simp)
      (fun l hl => by rw [List.mem_singleton.mp hl]; exact hno) (by simp; omega)
    simpa [joinWith] using this
  refine ⟨hs, ?_⟩
  rw [ParseSDP_eq fuel sdp [sdp] hf hs]
  by_cases hh : is_media_section_header sdp = true
  · have hw : sectionOfWindow [sdp] = none := by
      apply sectionOfWindow_none_of_mid
      apply scan_fst_of_no_mid
      intro l hl
      rw [List.mem_singleton.mp hl]
      exact header_not_mid sdp hh
    simp [mediaWindows, hh, hw]
  · simp [mediaWindows, hh]

/-- C16, on a complete section whose lines are separated by `\n` only. -/
theorem bare_lf_empty_witness :
    Split 40 "m=audio 9\na=mid:0\na=sendrecv\n".toList crlf
      = .ok ["m=audio 9\na=mid:0\na=sendrecv\n".toList] ∧
    ParseSDP 40 "m=audio 9\na=mid:0\na=sendrecv\n".toList = .ok [] :=
  bare_lf_empty 40 "m=audio 9\na=mid:0\na=sendrecv\n".toList (by decide) (by decide)

theorem SplitLoop_empty_delimiter (str : Str) :
    ∀ (fuel pos : Nat) (res : List Str), pos ≤ str.length →
      SplitLoop str [] fuel pos res = .error .out_of_fuel := by
  intro fuel
  induction fuel with
  | zero => intro pos res _; rfl
  | succ n ih =>
    intro pos res hpos
    unfold SplitLoop
    have hfind : find str [] pos = some pos := by
      unfold find
      rw [if_pos hpos]
      cases str.drop pos <;> simp [findFrom]
    rw [hfind]
    simp only [substr, if_pos hpos]
    exact ih pos _ hpos

/-- C17 (`Split` terminates): with a delimiter of length at least one, `Split` returns a
non-empty list once the fuel exceeds the length of the string, because every successful
search moves `pos_start` strictly forward while keeping it inside the string; with the
empty delimiter no amount of fuel is enough. -/
theorem split_terminates (fuel : Nat) (s d : Str) (hd : 0 < d.length)
    (hf : s.length + 1 ≤ fuel) :
    (∃ lines, Split fuel s d = .ok lines ∧ lines ≠ []) ∧
    (∀ pos_start pos_end, find s d pos_start = some pos_end →
      pos_start < pos_end + d.length ∧ pos_end + d.length ≤ s.length) ∧
    ∀ (n : Nat) (str : Str), Split n str [] = .error .out_of_fuel := by
  refine ⟨?_, ?_, ?_⟩
  · obtain ⟨lines, h1, h2, _⟩ := Split_total fuel s d hd hf
    exact ⟨lines, h1, List.length_pos.mp h2⟩
  · intro pos_start pos_end h
    have := find_bounds s d pos_start pos_end h
    omega
  · intro n str
    exact SplitLoop_empty_delimiter str n 0 [] (Nat.zero_le _)

/-- C17, on a text with three delimiters. -/
theorem split_terminates_witness :
    (∃ lines, Split 9 "a,b,,c".toList ",".toList = .ok lines ∧ lines ≠ []) ∧
    (∀ pos_start pos_end, find "a,b,,c".toList ",".toList pos_start = some pos_end →
      pos_start < pos_end + ",".toList.length ∧
        pos_end + ",".toList.length ≤ "a,b,,c".toList.length) ∧
    ∀ (n : Nat) (str : Str), Split n str [] = .error .out_of_fuel :=
  split_terminates 9 "a,b,,c".toList ",".toList (by decide) (by decide)

/-- The leftmost occurrence found by `find` from the start is the one of every
decomposition of the string around a leftmost occurrence. -/
theorem find_leftmost (str word a b : Str) (hs : str = a ++ word ++ b)
    (hmin : ∀ a1 b1, str = a1 ++ word ++ b1 → a.length ≤ a1.length) :
    find str word 0 = some a.length := by
  obtain ⟨e, he⟩ := find_isSome_of_occurrence str word ⟨a, b, hs.symm⟩
  obtain ⟨_, a0, b0, h0, e0, hmin0⟩ := find_some_spec str word 0 e he
  simp only [List.drop_zero, Nat.zero_add] at h0 e0 hmin0
  have h1 := hmin a0 b0 h0
  have h2 := hmin0 a b hs
  rw [he, e0]
  congr 1
  omega

theorem leftmost_exists (str word : Str) (h : word <:+: str) :
    ∃ a b, str = a ++ word ++ b ∧ ∀ a1 b1, str = a1 ++ word ++ b1 → a.length ≤ a1.length := by
  obtain ⟨e, he⟩ := find_isSome_of_occurrence str word h
  obtain ⟨_, a0, b0, h0, _, hmin0⟩ := find_some_spec str word 0 e he
  simp only [List.drop_zero] at h0 hmin0
  exact ⟨a0, b0, h0, hmin0⟩

theorem static_cast_int_small (n : Nat) (h : n < 2 ^ 31) : static_cast_int n = (n : Int) := by
  unfold static_cast_int
  have h1 : n % 2 ^ 32 = n := Nat.mod_eq_of_lt (by omega)
  rw [h1, if_pos h]

/-- On strings shorter than `2^31` characters, `RemoveAllSinceWordOccurrence` returns the
string unchanged when `word` does not occur in it, and otherwise the part of the string
before the leftmost occurrence of `word`, which holds no occurrence of a non-empty `word`. -/
theorem RemoveAllSinceWordOccurrence_within_int (str word : Str) (hlen : str.length < 2 ^ 31) :
    (¬ word <:+: str → RemoveAllSinceWordOccurrence str word = .ok str) ∧
    (∀ a b, str = a ++ word ++ b →
      (∀ a1 b1, str = a1 ++ word ++ b1 → a.length ≤ a1.length) →
      RemoveAllSinceWordOccurrence str word = .ok a ∧ (0 < word.length → ¬ word <:+: a)) := by
  constructor
  · intro h
    unfold RemoveAllSinceWordOccurrence find
    simp [findFrom_none_of_absent word str 0 h]
  · intro a b hs hmin
    have hal : a.length ≤ str.length := by
      rw [hs]; simp only [List.length_append]; omega
    refine ⟨?_, fun hw => absent_before_leftmost str a b word hw hs hmin⟩
    unfold RemoveAllSinceWordOccurrence
    rw [find_leftmost str word a b hs hmin]
    simp only [erase_to_end, static_cast_int_small a.length (by omega)]
    rw [if_pos ⟨Int.natCast_nonneg _, by exact_mod_cast hal⟩]
    simp only [Int.toNat_ofNat]
    rw [hs, List.append_assoc, List.take_left]

theorem findFrom_replicate (c w : Char) (hcw : c ≠ w) :
    ∀ (n i : Nat), findFrom (List.replicate n c ++ [w]) [w] i = some (i + n) := by
  intro n
  induction n with
  | zero => intro i; simp [findFrom]
  | succ k ih =>
    intro i
    rw [List.replicate_succ, List.cons_append]
    unfold findFrom
    have hp : ¬ List.isPrefixOf [w] (c :: (List.replicate k c ++ [w])) = true := by
      simp [List.isPrefixOf, Ne.symm hcw]
    rw [if_neg hp, ih]
    congr 1
    omega

theorem find_replicate (c w : Char) (hcw : c ≠ w) (n : Nat) :
    find (List.replicate n c ++ [w]) [w] 0 = some n := by
  unfold find
  rw [if_pos (Nat.zero_le _), List.drop_zero, findFrom_replicate c w hcw]
  simp

theorem RemoveAllSinceWordOccurrence_of_cast_zero (str word : Str) (pos : Nat)
    (hf : find str word 0 = some pos) (hc : static_cast_int pos = 0) :
    RemoveAllSinceWordOccurrence str word = .ok [] := by
  unfold RemoveAllSinceWordOccurrence
  rw [hf]
  simp only [hc, erase_to_end]
  rw [if_pos ⟨le_refl _, Int.natCast_nonneg _⟩]
  rfl

theorem RemoveAllSinceWordOccurrence_of_cast_neg (str word : Str) (pos : Nat)
    (hf : find str word 0 = some pos) (hc : static_cast_int pos < 0) :
    RemoveAllSinceWordOccurrence str word = .error .out_of_range := by
  unfold RemoveAllSinceWordOccurrence
  rw [hf]
  simp only [erase_to_end]
  rw [if_neg (by intro h; have := h.1; omega)]

theorem leftmost_of_find (str word : Str) (pos : Nat) (hf : find str word 0 = some pos) :
    ∀ a1 b1, str = a1 ++ word ++ b1 → pos ≤ a1.length := by
  obtain ⟨_, a0, b0, h0, e0, hmin0⟩ := find_some_spec str word 0 pos hf
  simp only [List.drop_zero, Nat.zero_add] at h0 e0 hmin0
  intro a1 b1 h
  rw [e0]
  exact hmin0 a1 b1 h

/-- C18 fails on long strings. On `2^32` characters `a` followed by `b`, the leftmost
occurrence of `b` is at position `2^32`, which `static_cast<int>` turns into `0`:
`RemoveAllSinceWordOccurrence` returns the empty string instead of the `2^32` characters
before the occurrence. On `2^31` characters `a` followed by `b` the conversion gives a
negative offset, and the iterator `str.begin() + off` is formed before the string. -/
theorem RemoveAllSinceWordOccurrence_int_truncation :
    RemoveAllSinceWordOccurrence (List.replicate (2 ^ 32) 'a' ++ ['b']) ['b'] = .ok [] ∧
    find (List.replicate (2 ^ 32) 'a' ++ ['b']) ['b'] 0 = some (2 ^ 32) ∧
    (∀ a1 b1, List.replicate (2 ^ 32) 'a' ++ ['b'] = a1 ++ ['b'] ++ b1 → 2 ^ 32 ≤ a1.length) ∧
    RemoveAllSinceWordOccurrence (List.replicate (2 ^ 31) 'a' ++ ['b']) ['b']
      = .error .out_of_range :=
  ⟨RemoveAllSinceWordOccurrence_of_cast_zero _ _ (2 ^ 32)
      (find_replicate 'a' 'b' (by decide) _) (by decide),
    find_replicate 'a' 'b' (by decide) _,
    leftmost_of_find _ _ (2 ^ 32) (find_replicate 'a' 'b' (by decide) _),
    RemoveAllSinceWordOccurrence_of_cast_neg _ _ (2 ^ 31)
      (find_replicate 'a' 'b' (by decide) _) (by decide)⟩

/-- C19 (`RemoveFirstOccurrence` deletes exactly one occurrence): the result is the string
unchanged when `word` does not occur in it; when it occurs there is a leftmost occurrence,
and for `str = a ++ word ++ b` around the leftmost occurrence the result is `a ++ b`, of
length `length str - length word`. -/
theorem remove_first_occurrence (str word : Str) :
    (¬ word <:+: str → RemoveFirstOccurrence str word = .ok str) ∧
    (word <:+: str →
      ∃ a b, str = a ++ word ++ b ∧
        ∀ a1 b1, str = a1 ++ word ++ b1 → a.length ≤ a1.length) ∧
    (∀ a b, str = a ++ word ++ b →
      (∀ a1 b1, str = a1 ++ word ++ b1 → a.length ≤ a1.length) →
      RemoveFirstOccurrence str word = .ok (a ++ b) ∧
        (a ++ b).length = str.length - word.length) := by
  refine ⟨?_, leftmost_exists str word, ?_⟩
  · intro h
    unfold RemoveFirstOccurrence find
    simp [findFrom_none_of_absent word str 0 h]
  · intro a b hs hmin
    constructor
    · unfold RemoveFirstOccurrence
      rw [find_leftmost str word a b hs hmin]
      have hal : a.length ≤ str.length := by
        rw [hs]; simp only [List.length_append]; omega
      simp only [erase, if_pos hal]
      congr 1
      rw [hs, List.append_assoc, List.take_left, ← List.length_append, ← List.append_assoc,
        List.drop_left]
    · rw [hs]
      simp only [List.length_append]
      omega

/-- C19, on a string with two occurrences of the word, and on one with none. -/
theorem remove_first_occurrence_witness :
    RemoveFirstOccurrence "a=b;a=c".toList "z".toList = .ok "a=b;a=c".toList ∧
    RemoveFirstOccurrence "a=b;a=c".toList "a=".toList = .ok "b;a=c".toList ∧
    "b;a=c".toList.length = "a=b;a=c".toList.length - "a=".toList.length := by
  have h := remove_first_occurrence "a=b;a=c".toList "a=".toList
  have h2 := h.2.2 [] "b;a=c".toList (by decide) (fun _ _ _ => Nat.zero_le _)
  exact ⟨(remove_first_occurrence "a=b;a=c".toList "z".toList).1 (by decide), h2.1, h2.2⟩

end chime
